import Mathlib

/-!
Verification of the tableau kernel (src/tableau.h): a sparse-or-dense
numeric vector (`List<T>`, embedded here as `Lst`) and the dual-view
matrices built from it (`Tableau<T>`, embedded as `Tab`).

The element type `T` is generic in the source; the only requirements are
an additive identity, addition, multiplication and a zero test
(`_IsZeroT`, injectable per element type).  The embedding instantiates
`T` with `Int` and the zero test with exact equality to zero, which is
the faithful exact-arithmetic instance of that contract.  Indices
(`tableau_index_t`, an `int64_t`) are embedded as `Int`.

A sparse vector's parallel arrays `index_` / `data_` are embedded as a
single list of (index, value) pairs; a dense vector's `data_` array as a
list of values.  Assertions of the source (`assert`, `assert_msg`) and
reads of never-allocated storage are embedded as `Option`: `none` is a
contract violation / undefined behaviour.
-/

/-- `_IsZeroT` of the element type, instantiated with the exact test. -/
def isZeroT (v : Int) : Bool := v == 0

/-- `enum ListStorageFormat { DENSE, SPARSE }` realized as the two
constructors of the vector type: `List<T>` with `storage_format_ ==
SPARSE` holds parallel `index_` / `data_` arrays (here: one list of
pairs); with `DENSE` it holds a flat `data_` array. -/
inductive Lst where
  | sp (entries : List (Int × Int))
  | dn (data : List Int)
deriving DecidableEq, Repr

/-- `List<T>::Size()`: number of populated entries. -/
def Lst.size : Lst → Int
  | .sp e => e.length
  | .dn d => d.length

/-- The loop body of `List<T>::BinarySearch` on the `index_` array:
`while (lower <= upper) { middle = (lower+upper)/2; ... }`, returning
the position holding `target` or `-1`. -/
def bsGo (idx : List Int) (target : Int) (lower upper : Int) : Int :=
  if _h : lower ≤ upper then
    if idx.getD ((lower + upper) / 2).toNat 0 = target then (lower + upper) / 2
    else if idx.getD ((lower + upper) / 2).toNat 0 > target then
      bsGo idx target lower ((lower + upper) / 2 - 1)
    else bsGo idx target ((lower + upper) / 2 + 1) upper
  else -1
termination_by (upper + 1 - lower).toNat
decreasing_by
  all_goals omega

/-- `List<T>::BinarySearch(index)`: searches `index_` over
`lower = 0, upper = size_ - 1`. -/
def binarySearch (idx : List Int) (target : Int) : Int :=
  bsGo idx target 0 ((idx.length : Int) - 1)

/-- `List<T>::At(index)`: SPARSE looks the index up by binary search and
returns 0 when absent; DENSE reads the slot directly. -/
def Lst.at : Lst → Int → Int
  | .sp e, index =>
    let pos := binarySearch (e.map Prod.fst) index
    if pos ≥ 0 then (e.getD pos.toNat (0, 0)).2 else 0
  | .dn d, index => d.getD index.toNat 0

/-- `List<T>::Set(index, value)`: SPARSE updates an already-present
index (never inserts); DENSE writes the slot. -/
def Lst.set : Lst → Int → Int → Lst
  | .sp e, index, value =>
    let pos := binarySearch (e.map Prod.fst) index
    if pos ≥ 0 then .sp (e.set pos.toNat ((e.getD pos.toNat (0, 0)).1, value)) else .sp e
  | .dn d, index, value => .dn (d.set index.toNat value)

/-- `List<T>::Erase(index)` (SPARSE only): when the index is stored at
position `pos`, shifts every later entry down one slot with its stored
index decremented by one, and shrinks the size. -/
def Lst.eraseAt : Lst → Int → Lst
  | .sp e, index =>
    let pos := binarySearch (e.map Prod.fst) index
    if pos ≥ 0 then
      .sp (e.take pos.toNat ++ (e.drop (pos.toNat + 1)).map (fun p => (p.1 - 1, p.2)))
    else .sp e
  | .dn d, _ => .dn d

/-- The SPARSE branch of `List<T>::Pop(last_index)`: when the vector is
non-empty, a given `last_index > 0` that differs from the last stored
index makes the call return early; otherwise the size shrinks by one. -/
def spPop (e : List (Int × Int)) (lastIndex : Int) : List (Int × Int) :=
  if e.length > 0 then
    if lastIndex > 0 ∧ (e.getLastD (0, 0)).1 ≠ lastIndex then e
    else e.dropLast
  else e

/-- `List<T>::Pop(last_index)`: asserts the SPARSE format (`none` on a
DENSE receiver). -/
def Lst.pop : Lst → Int → Option Lst
  | .sp e, lastIndex => some (.sp (spPop e lastIndex))
  | .dn _, _ => none

/-- `List<T>::Append(index, value)`: SPARSE pushes a new pair at the
logical end; DENSE acts as an in-bounds indexed write. -/
def Lst.append : Lst → Int → Int → Lst
  | .sp e, index, value => .sp (e ++ [(index, value)])
  | .dn d, index, value => .dn (d.set index.toNat value)

/-- `List<T>::Scale(scale)`: multiplies every stored value in place
(`data_[i] *= scale` over the populated positions). -/
def Lst.scaleBy : Lst → Int → Lst
  | .sp e, s => .sp (e.map (fun p => (p.1, p.2 * s)))
  | .dn d, s => .dn (d.map (fun v => v * s))

/-- The copy constructor `List<T>::List(const List<T>*)` preserves the
storage format and copies the backing arrays; in this embedding a clone
is the value itself. -/
def Lst.clone (l : Lst) : Lst := l

/-- `List<T>::Iterator` walked from `Begin()` to `IsEnd()`: on SPARSE it
yields the stored (index, value) pairs in storage order; on DENSE it
yields every position `0..size_-1` with its value. -/
def Lst.entriesList : Lst → List (Int × Int)
  | .sp e => e
  | .dn d => (List.range d.length).map (fun (n : Nat) => ((n : Int), d.getD n 0))

/-- The merge loop of `List<T>::SparseAdd(other, scale, enable_scale)`:
a linear merge of the two ascending index sequences.  Matching indices
keep the sum only when it fails the zero test; an index present in only
one operand is copied through, dropped when its (scaled) value is zero.
The zero test of the right-only branch is on `scale * value` while the
stored value is scaled only when `enable_scale` is set, exactly as in
the source. -/
def spMerge (a b : List (Int × Int)) (scale : Int) (enableScale : Bool) :
    List (Int × Int) :=
  match a, b with
  | [], [] => []
  | (i, v) :: a', [] =>
    (if !isZeroT v then [(i, v)] else []) ++ spMerge a' [] scale enableScale
  | [], (j, w) :: b' =>
    (if !isZeroT (scale * w) then [(j, if enableScale then scale * w else w)] else [])
      ++ spMerge [] b' scale enableScale
  | (i, v) :: a', (j, w) :: b' =>
    if i = j then
      let sum := v + (if enableScale then scale * w else w)
      (if !isZeroT sum then [(i, sum)] else []) ++ spMerge a' b' scale enableScale
    else if i < j then
      (if !isZeroT v then [(i, v)] else []) ++ spMerge a' ((j, w) :: b') scale enableScale
    else
      (if !isZeroT (scale * w) then [(j, if enableScale then scale * w else w)] else [])
        ++ spMerge ((i, v) :: a') b' scale enableScale
termination_by a.length + b.length

/-- `List<T>::SparseAdd(other, scale, enable_scale)`: returns the
receiver untouched when the operand is empty (`if (other->Size() == 0)
return;`), and otherwise replaces the backing arrays by the merge. -/
def sparseAddE (a b : List (Int × Int)) (scale : Int) (enableScale : Bool) :
    List (Int × Int) :=
  if b.length = 0 then a else spMerge a b scale enableScale

/-- The intersection-merge loop of `List<T>::SparseMul(other)`: only
indices present in both operands survive, with the product kept only
when it fails the zero test. -/
def sparseMulE (a b : List (Int × Int)) : List (Int × Int) :=
  match a, b with
  | [], _ => []
  | _, [] => []
  | (i, v) :: a', (j, w) :: b' =>
    if i = j then
      let prod := v * w
      (if !isZeroT prod then [(i, prod)] else []) ++ sparseMulE a' b'
    else if i < j then sparseMulE a' ((j, w) :: b')
    else sparseMulE ((i, v) :: a') b'
termination_by a.length + b.length

/-- The loop of `List<T>::SparseDot(other)`: an intersection merge
accumulating the product sum. -/
def sparseDotE (a b : List (Int × Int)) : Int :=
  match a, b with
  | [], _ => 0
  | _, [] => 0
  | (i, v) :: a', (j, w) :: b' =>
    if i = j then v * w + sparseDotE a' b'
    else if i < j then sparseDotE a' ((j, w) :: b')
    else sparseDotE ((i, v) :: a') b'
termination_by a.length + b.length

/-- The guard shared by the mixed sparse/dense branches of `AddScaled`,
`Mul` and `Dot`: `if (sparse_size > 0) assert(sparse_index[sparse_size-1]
< dense_size)`. -/
def mixedGuard (sparse : List (Int × Int)) (denseSize : Nat) : Prop :=
  sparse ≠ [] → (sparse.getLastD (0, 0)).1 < (denseSize : Int)

instance (sparse : List (Int × Int)) (denseSize : Nat) :
    Decidable (mixedGuard sparse denseSize) := by
  unfold mixedGuard; infer_instance

/-- The dense-receiver scatter loop of the mixed branch of
`List<T>::AddScaled`: `dense_data[sparse_index[i]] += scale *
sparse_data[i]` over the sparse entries (the scaled variant). -/
def scatterAdd (acc : List Int) (sparse : List (Int × Int)) (scale : Int) :
    List Int :=
  sparse.foldl (fun d p => d.set p.1.toNat (d.getD p.1.toNat 0 + scale * p.2)) acc

/-- `List<T>::AddScaled(other, scale, enable_scale)`; `List<T>::Add` is
the `scale = 1, enable_scale = false` instance.  SPARSE+SPARSE merges;
DENSE+DENSE asserts equal sizes and adds position-wise; in the mixed
cases every sparse index must stay below the dense size, the sparse
entries are scattered into the dense data, and a SPARSE receiver
becomes DENSE. -/
def Lst.addScaled : Lst → Lst → Int → Bool → Option Lst
  | .sp a, .sp b, scale, enableScale => some (.sp (sparseAddE a b scale enableScale))
  | .dn x, .dn y, scale, enableScale =>
    if x.length = y.length then
      some (.dn (List.zipWith (fun u v => u + (if enableScale then scale * v else v)) x y))
    else none
  | .dn x, .sp b, scale, enableScale =>
    if mixedGuard b x.length then
      some (.dn (scatterAdd x b (if enableScale then scale else 1)))
    else none
  | .sp a, .dn y, scale, enableScale =>
    if mixedGuard a y.length then
      some (.dn (scatterAdd (if enableScale then y.map (fun v => v * scale) else y) a 1))
    else none

/-- `List<T>::Add(other)` = `AddScaled(other, 1, false)`. -/
def Lst.add (l other : Lst) : Option Lst := l.addScaled other 1 false

/-- `List<T>::Mul(other)`.  SPARSE×SPARSE is the intersection merge;
DENSE×DENSE asserts equal sizes and multiplies position-wise; a SPARSE
receiver with a DENSE operand scales its entries in place through the
dense lookup table; a DENSE receiver with a SPARSE operand becomes
SPARSE keyed by the operand's indices, the new value combined with
`new_data[i] += dense_data[sparse_index[i]]` exactly as in the source
(an addition, not a multiplication). -/
def Lst.mul : Lst → Lst → Option Lst
  | .sp a, .sp b => some (.sp (sparseMulE a b))
  | .dn x, .dn y =>
    if x.length = y.length then some (.dn (List.zipWith (fun u v => u * v) x y))
    else none
  | .sp a, .dn y =>
    if mixedGuard a y.length then
      some (.sp (a.map (fun p => (p.1, p.2 * y.getD p.1.toNat 0))))
    else none
  | .dn x, .sp b =>
    if mixedGuard b x.length then
      some (.sp (b.map (fun p => (p.1, p.2 + x.getD p.1.toNat 0))))
    else none

/-- `List<T>::Dot(other)`: SPARSE×SPARSE runs the intersection-merge
sum; DENSE×DENSE asserts equal sizes and sums position-wise products;
the mixed cases sum `sparse_data[i] * dense_data[sparse_index[i]]`
under the shared bound assertion. -/
def Lst.dot : Lst → Lst → Option Int
  | .sp a, .sp b => some (sparseDotE a b)
  | .dn x, .dn y =>
    if x.length = y.length then some (List.zipWith (fun u v => u * v) x y).sum
    else none
  | .sp a, .dn y =>
    if mixedGuard a y.length then
      some ((a.map (fun p => p.2 * y.getD p.1.toNat 0)).sum)
    else none
  | .dn x, .sp b =>
    if mixedGuard b x.length then
      some ((b.map (fun p => p.2 * x.getD p.1.toNat 0)).sum)
    else none

/-- `List<T>::Reduce(reduce, initial_value)`: a strict left-to-right
fold over the populated entries, each step combining the current
(index, value) pair with the carried accumulator as
`initial_value = reduce({index, data}, initial_value)`. -/
def Lst.reduce (l : Lst) (f : Int × Int → Int × Int → Int × Int)
    (initialValue : Int × Int) : Int × Int :=
  l.entriesList.foldl (fun acc p => f p acc) initialValue

/-- `List<T>::MinReduce(a, b)`: `(b.second < a.second) ? b : a`. -/
def minReduceE (a b : Int × Int) : Int × Int :=
  if b.2 < a.2 then b else a

/-- `enum TableauStorageFormat { ROW_ONLY, COLUMN_ONLY, ROW_AND_COLUMN }`. -/
inductive TFormat where
  | rowOnly
  | columnOnly
  | rowAndColumn
deriving DecidableEq, Repr

/-- `storage_format_ == ROW_ONLY or storage_format_ == ROW_AND_COLUMN`:
the row axis is materialized. -/
def TFormat.hasRows (f : TFormat) : Bool :=
  f == .rowOnly || f == .rowAndColumn

/-- `storage_format_ == COLUMN_ONLY or storage_format_ == ROW_AND_COLUMN`:
the column axis is materialized. -/
def TFormat.hasCols (f : TFormat) : Bool :=
  f == .columnOnly || f == .rowAndColumn

/-- `Tableau<T>`: row count, column count, storage format, and the owned
`row_heads_` / `col_heads_` vector arrays (empty when the corresponding
axis was never allocated). -/
structure Tab where
  rows : Int
  cols : Int
  fmt : TFormat
  rowHeads : List Lst
  colHeads : List Lst
deriving DecidableEq, Repr

/-- The `Tableau(rows, columns, format)` constructor: each present axis
starts as an array of empty SPARSE vectors. -/
def Tab.init (rows cols : Int) (fmt : TFormat) : Tab :=
  { rows := rows, cols := cols, fmt := fmt,
    rowHeads := if fmt.hasRows then List.replicate rows.toNat (Lst.sp []) else [],
    colHeads := if fmt.hasCols then List.replicate cols.toNat (Lst.sp []) else [] }

/-- `Tableau<T>::Row(row)`: direct accessor to the owned row vector. -/
def Tab.rowGet (t : Tab) (row : Int) : Lst :=
  t.rowHeads.getD row.toNat (Lst.sp [])

/-- `Tableau<T>::Col(col)`: direct accessor to the owned column vector. -/
def Tab.colGet (t : Tab) (col : Int) : Lst :=
  t.colHeads.getD col.toNat (Lst.sp [])

/-- `Tableau<T>::At(row, col)`: reads through the row axis when it is
present, otherwise through the column axis. -/
def Tab.at (t : Tab) (row col : Int) : Int :=
  if t.fmt.hasRows then (t.rowGet row).at col else (t.colGet col).at row

/-- Updates one slot of a vector array in place; an out-of-range
position leaves the array unchanged. -/
def updAt (l : List Lst) (n : Nat) (f : Lst → Lst) : List Lst :=
  l.set n (f (l.getD n (Lst.sp [])))

/-- `List<T>::Cross(other, rows, cols, format)`: builds a fresh tableau
and, for each populated entry `(index, scale)` of the receiver, installs
a scaled clone of `other` as row `index` (when rows are present), and
symmetrically for each entry of `other` installs a scaled clone of the
receiver as that column.  The source reads `index_` of both operands,
so both must be SPARSE. -/
def Lst.cross (l other : Lst) (rows cols : Int) (format : TFormat) :
    Option Tab :=
  match l, other with
  | .sp ea, .sp eb =>
    let t0 := Tab.init rows cols format
    let t1 :=
      if format.hasRows then
        { t0 with rowHeads :=
            (ea.foldl (fun rh p => rh.set p.1.toNat ((Lst.sp eb).clone.scaleBy p.2)) t0.rowHeads) }
      else t0
    let t2 :=
      if format.hasCols then
        { t1 with colHeads :=
            (eb.foldl (fun ch p => ch.set p.1.toNat ((Lst.sp ea).clone.scaleBy p.2)) t1.colHeads) }
      else t1
    some t2
  | _, _ => none

/-- `Tableau<T>::AppendExtraCol(list)`: grows the column count, installs
`list` as the new last column (when columns are present), and appends
each of its populated entries at the new last column index into the
corresponding row (when rows are present). -/
def Tab.appendExtraCol (t : Tab) (list : Lst) : Tab :=
  let cols := t.cols + 1
  let ch := if t.fmt.hasCols then t.colHeads ++ [list] else t.colHeads
  let rh :=
    if t.fmt.hasRows then
      list.entriesList.foldl
        (fun rh p => updAt rh p.1.toNat (fun r => r.append (cols - 1) p.2)) t.rowHeads
    else t.rowHeads
  { t with cols := cols, colHeads := ch, rowHeads := rh }

/-- `Tableau<T>::RemoveExtraCol()`: shrinks the column count and, when
the row axis is present, walks `col_heads_[columns_]` and pops that
column's trailing entry from each affected row.  In `ROW_ONLY` format
`col_heads_` was never allocated, so the read is undefined behaviour,
embedded as `none`. -/
def Tab.removeExtraCol (t : Tab) : Option Tab :=
  let cols := t.cols - 1
  if t.fmt.hasRows then
    if t.fmt.hasCols then
      let lastCol := t.colHeads.getD cols.toNat (Lst.sp [])
      (lastCol.entriesList.foldlM
        (fun (rh : List Lst) (p : Int × Int) =>
          ((rh.getD p.1.toNat (Lst.sp [])).pop cols).map (fun r => rh.set p.1.toNat r))
        t.rowHeads).map
        (fun rh => { t with cols := cols, rowHeads := rh })
    else none
  else some { t with cols := cols }

/-- `Tableau<T>::SumScaledRows(scale)`: accumulates into a fresh DENSE
vector of length `columns_`.  With the row axis present it adds
`scale[i] * Row(i)` for each populated entry of `scale`; otherwise it
sets each column slot to `scale->Dot(Col(col))`. -/
def Tab.sumScaledRows (t : Tab) (scale : Lst) : Option Lst :=
  let ret : Lst := Lst.dn (List.replicate t.cols.toNat 0)
  if t.fmt.hasRows then
    scale.entriesList.foldlM
      (fun ret (p : Int × Int) => ret.addScaled (t.rowGet p.1) p.2 true) ret
  else
    (List.range t.cols.toNat).foldlM
      (fun ret (col : Nat) =>
        (scale.dot (t.colGet col)).map (fun v => ret.set col v)) ret

/-- Strictly ascending stored indices, the SPARSE representation
invariant presupposed by the claims. -/
def Asc (e : List (Int × Int)) : Prop :=
  e.Pairwise (fun p q => p.1 < q.1)

instance (e : List (Int × Int)) : Decidable (Asc e) := by
  unfold Asc; infer_instance

/-- No stored entry's value satisfies the zero test. -/
def ZeroFree (e : List (Int × Int)) : Prop :=
  ∀ p ∈ e, ¬ isZeroT p.2

instance (e : List (Int × Int)) : Decidable (ZeroFree e) := by
  unfold ZeroFree; infer_instance

/-- Every stored index is non-negative and strictly below `bound`. -/
def InBounds (e : List (Int × Int)) (bound : Int) : Prop :=
  ∀ p ∈ e, 0 ≤ p.1 ∧ p.1 < bound

instance (e : List (Int × Int)) (bound : Int) : Decidable (InBounds e bound) := by
  unfold InBounds; infer_instance

/-- Reference linear lookup in an entry list: the value of the first
entry carrying the index, or 0. -/
def entLookup (e : List (Int × Int)) (k : Int) : Int :=
  match e.find? (fun p => p.1 = k) with
  | some p => p.2
  | none => 0

example : Lst.at (.sp [(2, 5), (7, 9)]) 7 = 9 := by
  simp +decide [Lst.at, binarySearch, bsGo]
example : Lst.at (.sp [(2, 5), (7, 9)]) 3 = 0 := by
  simp +decide [Lst.at, binarySearch, bsGo]
example : Lst.add (.sp [(2, 1), (4, -1)]) (.sp [(2, -1), (4, 1)]) = some (.sp []) := by
  simp +decide [Lst.add, Lst.addScaled, sparseAddE, spMerge, isZeroT]
example : Lst.mul (.dn [2, 3]) (.sp [(0, 5)]) = some (.sp [(0, 7)]) := by
  simp +decide [Lst.mul, mixedGuard]
example : Lst.reduce (.sp [(0, 5), (3, 5)]) minReduceE (-1, 100) = (3, 5) := by
  simp +decide [Lst.reduce, Lst.entriesList, minReduceE]

/-! ## Binary search correctness -/

/-- `entLookup` on a cons. -/
theorem entLookup_cons (x : Int × Int) (e : List (Int × Int)) (k : Int) :
    entLookup (x :: e) k = if x.1 = k then x.2 else entLookup e k := by
  by_cases h : x.1 = k <;> simp [entLookup, List.find?, h]

/-- `entLookup` vanishes when no entry carries the index. -/
theorem entLookup_eq_zero (e : List (Int × Int)) (k : Int)
    (h : ∀ p ∈ e, p.1 ≠ k) : entLookup e k = 0 := by
  have : e.find? (fun p => p.1 = k) = none := by
    rw [List.find?_eq_none]
    intro p hp
    simpa using h p hp
  simp [entLookup, this]

/-- On a strictly ascending entry list, the entry at the position found
by position is the unique (hence first) match of its stored index. -/
theorem find?_of_sorted_pos (e : List (Int × Int)) (k : Int) (he : Asc e) :
    ∀ (p : Nat), p < e.length → (e.getD p (0, 0)).1 = k →
      e.find? (fun q => q.1 = k) = some (e.getD p (0, 0)) := by
  induction e with
  | nil => intro p hp; simp at hp
  | cons x tl ih =>
    intro p hp hk
    by_cases hx : x.1 = k
    · have hp0 : p = 0 := by
        by_contra hne
        obtain ⟨q, rfl⟩ := Nat.exists_eq_succ_of_ne_zero hne
        have hq : q < tl.length := by simpa using hp
        have hmem : tl.getD q (0, 0) ∈ tl := by
          rw [List.getD_eq_getElem _ _ hq]; exact List.getElem_mem hq
        have hlt : x.1 < (tl.getD q (0, 0)).1 := (List.pairwise_cons.mp he).1 _ hmem
        have : (tl.getD q (0, 0)).1 = k := by simpa using hk
        omega
      subst hp0
      simp only [List.getD_cons_zero]
      simp [List.find?, hx]
    · have hp0 : p ≠ 0 := by
        intro h0; subst h0; simp at hk; exact hx hk
      obtain ⟨q, rfl⟩ := Nat.exists_eq_succ_of_ne_zero hp0
      have hq : q < tl.length := by simpa using hp
      have hk' : (tl.getD q (0, 0)).1 = k := by simpa using hk
      have := ih (List.pairwise_cons.mp he).2 q hq hk'
      simp only [List.getD_cons_succ]
      rw [List.find?]
      simp only [hx, decide_eq_true_eq]
      simpa [hx] using this

/-- Correctness of the loop of `List<T>::BinarySearch` on a sorted index
array: within a window that provably contains every position of the
target, the loop returns a position holding the target or `-1` when the
target is absent. -/
theorem bsGo_correct (idx : List Int) (k : Int) (hs : idx.Pairwise (· < ·)) :
    ∀ (n : Nat) (lower upper : Int), (upper + 1 - lower).toNat ≤ n →
      0 ≤ lower → upper < (idx.length : Int) →
      (∀ p : Nat, p < idx.length → idx.getD p 0 = k →
        lower ≤ (p : Int) ∧ (p : Int) ≤ upper) →
      (bsGo idx k lower upper = -1 ∧ ∀ p : Nat, p < idx.length → idx.getD p 0 ≠ k)
      ∨ (0 ≤ bsGo idx k lower upper ∧ (bsGo idx k lower upper).toNat < idx.length ∧
          idx.getD (bsGo idx k lower upper).toNat 0 = k) := by
  intro n
  induction n with
  | zero =>
    intro lower upper hn h0 hlen hw
    have hlt : ¬ lower ≤ upper := by omega
    rw [bsGo, dif_neg hlt]
    refine Or.inl ⟨rfl, fun p hp hk => ?_⟩
    have := hw p hp hk
    omega
  | succ n ih =>
    intro lower upper hn h0 hlen hw
    by_cases hle : lower ≤ upper
    · rw [bsGo, dif_pos hle]
      have hmid1 : lower ≤ (lower + upper) / 2 := by omega
      have hmid2 : (lower + upper) / 2 ≤ upper := by omega
      have hmidlen : ((lower + upper) / 2).toNat < idx.length := by omega
      have hmono : ∀ (p q : Nat), p < q → q < idx.length →
          idx.getD p 0 < idx.getD q 0 := by
        intro p q hpq hq
        rw [List.getD_eq_getElem _ _ (Nat.lt_trans hpq hq), List.getD_eq_getElem _ _ hq]
        exact List.pairwise_iff_getElem.mp hs p q (Nat.lt_trans hpq hq) hq hpq
      by_cases heq : idx.getD ((lower + upper) / 2).toNat 0 = k
      · rw [if_pos heq]
        refine Or.inr ⟨by omega, by omega, ?_⟩
        convert heq using 2
      · rw [if_neg heq]
        by_cases hgt : idx.getD ((lower + upper) / 2).toNat 0 > k
        · rw [if_pos hgt]
          refine ih lower ((lower + upper) / 2 - 1) (by omega) h0 (by omega) ?_
          intro p hp hk
          have hwin := hw p hp hk
          refine ⟨hwin.1, ?_⟩
          by_contra hcon
          have hge : ((lower + upper) / 2).toNat ≤ p := by omega
          rcases Nat.lt_or_ge ((lower + upper) / 2).toNat p with hlt2 | hge2
          · have := hmono _ _ hlt2 hp
            omega
          · have hpe : p = ((lower + upper) / 2).toNat := by omega
            subst hpe
            exact heq hk
        · rw [if_neg hgt]
          have hltk : idx.getD ((lower + upper) / 2).toNat 0 < k := by omega
          refine ih ((lower + upper) / 2 + 1) upper (by omega) (by omega) hlen ?_
          intro p hp hk
          have hwin := hw p hp hk
          refine ⟨?_, hwin.2⟩
          by_contra hcon
          have hle2 : p ≤ ((lower + upper) / 2).toNat := by omega
          rcases Nat.lt_or_ge p ((lower + upper) / 2).toNat with hlt2 | hge2
          · have := hmono _ _ hlt2 hmidlen
            omega
          · have hpe : p = ((lower + upper) / 2).toNat := by omega
            subst hpe
            exact heq hk
    · rw [bsGo, dif_neg hle]
      refine Or.inl ⟨rfl, fun p hp hk => ?_⟩
      have := hw p hp hk
      omega

/-- Correctness of `List<T>::BinarySearch` on a sorted index array. -/
theorem binarySearch_correct (idx : List Int) (k : Int)
    (hs : idx.Pairwise (· < ·)) :
    (binarySearch idx k = -1 ∧ ∀ p : Nat, p < idx.length → idx.getD p 0 ≠ k)
    ∨ (0 ≤ binarySearch idx k ∧ (binarySearch idx k).toNat < idx.length ∧
        idx.getD (binarySearch idx k).toNat 0 = k) := by
  exact bsGo_correct idx k hs ((idx.length : Int) - 1 + 1 - 0).toNat 0
    ((idx.length : Int) - 1) (by omega) (by omega) (by omega)
    (fun p hp _ => by omega)

/-- `List<T>::At` on a strictly ascending sparse vector agrees with the
reference linear lookup. -/
theorem at_sp_eq_entLookup (e : List (Int × Int)) (k : Int) (he : Asc e) :
    Lst.at (.sp e) k = entLookup e k := by
  have hs : (e.map Prod.fst).Pairwise (· < ·) := by
    rw [List.pairwise_map]; exact he
  rcases binarySearch_correct (e.map Prod.fst) k hs with ⟨hbs, habs⟩ | ⟨h0, hlt, hget⟩
  · have hnone : ∀ p ∈ e, p.1 ≠ k := by
      intro p hp
      obtain ⟨q, hq, hqe⟩ := List.getElem_of_mem hp
      have hq' : q < (e.map Prod.fst).length := by simpa using hq
      have := habs q hq'
      rw [List.getD_eq_getElem _ _ hq'] at this
      simpa [hqe] using this
    rw [entLookup_eq_zero e k hnone]
    simp [Lst.at, hbs]
  · have hlen : (binarySearch (e.map Prod.fst) k).toNat < e.length := by
      simpa using hlt
    have hfst : (e.getD (binarySearch (e.map Prod.fst) k).toNat (0, 0)).1 = k := by
      rw [List.getD_eq_getElem _ _ hlen]
      rw [List.getD_eq_getElem _ _ hlt] at hget
      simpa using hget
    have := find?_of_sorted_pos e k he _ hlen hfst
    simp only [Lst.at, if_pos h0]
    rw [entLookup, this]

/-! ## Properties of the sparse merge loops -/

/-- Membership in a conditionally emitted singleton. -/
theorem mem_filtOne {c : Prop} [Decidable c] (p q : Int × Int)
    (h : p ∈ (if c then [q] else ([] : List (Int × Int)))) : p = q := by
  split at h <;> simp_all

/-- Every index stored by the additive merge comes from one of the two
operands. -/
theorem spMerge_mem_fst :
    ∀ (a b : List (Int × Int)) (s : Int) (en : Bool) (k : Int),
      k ∈ (spMerge a b s en).map Prod.fst →
      k ∈ a.map Prod.fst ∨ k ∈ b.map Prod.fst := by
  intro a b s en
  induction a, b, s, en using spMerge.induct with
  | case1 s en =>
    intro k hk
    simp [spMerge] at hk
  | case2 s en i v a' ih =>
    intro k hk
    simp only [spMerge] at hk
    rw [List.map_append, List.mem_append] at hk
    rcases hk with hk | hk
    · rcases List.mem_map.mp hk with ⟨p, hp, rfl⟩
      have hpq := mem_filtOne _ _ hp
      left; simp [hpq]
    · rcases ih k hk with h | h
      · left; simp [h]
      · right; exact h
  | case3 s en j w b' ih =>
    intro k hk
    simp only [spMerge] at hk
    rw [List.map_append, List.mem_append] at hk
    rcases hk with hk | hk
    · rcases List.mem_map.mp hk with ⟨p, hp, rfl⟩
      have hpq := mem_filtOne _ _ hp
      right; simp [hpq]
    · rcases ih k hk with h | h
      · left; exact h
      · right; simp [h]
  | case4 s en v a' j w b' ih =>
    intro k hk
    simp only [spMerge, if_true, eq_self_iff_true] at hk
    rw [List.map_append, List.mem_append] at hk
    rcases hk with hk | hk
    · rcases List.mem_map.mp hk with ⟨p, hp, rfl⟩
      have hpq := mem_filtOne _ _ hp
      left; simp [hpq]
    · rcases ih k hk with h | h
      · left; simp [h]
      · right; simp [h]
  | case5 s en i v a' j w b' hne hlt ih =>
    intro k hk
    simp only [spMerge, if_neg hne, if_pos hlt] at hk
    rw [List.map_append, List.mem_append] at hk
    rcases hk with hk | hk
    · rcases List.mem_map.mp hk with ⟨p, hp, rfl⟩
      have hpq := mem_filtOne _ _ hp
      left; simp [hpq]
    · rcases ih k hk with h | h
      · left; simp [h]
      · right; exact h
  | case6 s en i v a' j w b' hne hnlt ih =>
    intro k hk
    simp only [spMerge, if_neg hne, if_neg hnlt] at hk
    rw [List.map_append, List.mem_append] at hk
    rcases hk with hk | hk
    · rcases List.mem_map.mp hk with ⟨p, hp, rfl⟩
      have hpq := mem_filtOne _ _ hp
      right; simp [hpq]
    · rcases ih k hk with h | h
      · left; exact h
      · right; simp [h]

/-- `isZeroT` tests exact equality with zero. -/
theorem isZeroT_iff (v : Int) : isZeroT v = true ↔ v = 0 := by
  simp [isZeroT]

/-- `entLookup` on the empty list. -/
theorem entLookup_nil (k : Int) : entLookup [] k = 0 := rfl

/-- Prepending a conditionally emitted entry below every index of a
sorted tail preserves sortedness. -/
theorem asc_filt_append (i x : Int) (rest : List (Int × Int)) (c : Prop)
    [Decidable c] (hrest : Asc rest)
    (hlt : ∀ k ∈ rest.map Prod.fst, i < k) :
    Asc ((if c then [(i, x)] else []) ++ rest) := by
  split
  · rw [List.singleton_append, Asc, List.pairwise_cons]
    exact ⟨fun q hq => hlt q.1 (List.mem_map_of_mem _ hq), hrest⟩
  · simpa using hrest

/-- A conditionally emitted non-zero entry atop a zero-free tail. -/
theorem zeroFree_filt_append (i x : Int) (rest : List (Int × Int)) (c : Prop)
    [Decidable c] (hrest : ZeroFree rest) (hx : c → ¬ isZeroT x = true) :
    ZeroFree ((if c then [(i, x)] else []) ++ rest) := by
  intro p hp
  rw [List.mem_append] at hp
  rcases hp with hp | hp
  · split at hp
    · simp at hp
      subst hp
      simp only
      next h => exact hx h
    · simp at hp
  · exact hrest p hp

/-- In a strictly ascending cons-list, every stored index is above any
bound below the head. -/
theorem asc_all_gt (j w : Int) (b' : List (Int × Int))
    (hb : Asc ((j, w) :: b')) (i : Int) (hij : i < j) :
    ∀ k ∈ ((j, w) :: b').map Prod.fst, i < k := by
  intro k hk
  simp only [List.map_cons, List.mem_cons] at hk
  rcases hk with rfl | hk
  · exact hij
  · rcases List.mem_map.mp hk with ⟨p, hp, rfl⟩
    have := (List.pairwise_cons.mp hb).1 p hp
    omega

/-- The additive merge of two strictly ascending entry lists stays
strictly ascending. -/
theorem spMerge_sorted :
    ∀ (a b : List (Int × Int)) (s : Int) (en : Bool),
      Asc a → Asc b → Asc (spMerge a b s en) := by
  intro a b s en
  induction a, b, s, en using spMerge.induct with
  | case1 s en =>
    intro _ _
    simp [spMerge, Asc]
  | case2 s en i v a' ih =>
    intro ha _
    rw [spMerge]
    have ha' := (List.pairwise_cons.mp ha).2
    refine asc_filt_append _ _ _ _ (ih ha' (by simp [Asc])) ?_
    intro k hk
    rcases spMerge_mem_fst _ _ _ _ k hk with h | h
    · rcases List.mem_map.mp h with ⟨p, hp, rfl⟩
      exact (List.pairwise_cons.mp ha).1 p hp
    · simp at h
  | case3 s en j w b' ih =>
    intro _ hb
    rw [spMerge]
    have hb' := (List.pairwise_cons.mp hb).2
    refine asc_filt_append _ _ _ _ (ih (by simp [Asc]) hb') ?_
    intro k hk
    rcases spMerge_mem_fst _ _ _ _ k hk with h | h
    · simp at h
    · rcases List.mem_map.mp h with ⟨p, hp, rfl⟩
      exact (List.pairwise_cons.mp hb).1 p hp
  | case4 s en v a' j w b' ih =>
    intro ha hb
    rw [spMerge, if_pos rfl]
    have ha' := (List.pairwise_cons.mp ha).2
    have hb' := (List.pairwise_cons.mp hb).2
    refine asc_filt_append _ _ _ _ (ih ha' hb') ?_
    intro k hk
    rcases spMerge_mem_fst _ _ _ _ k hk with h | h
    · rcases List.mem_map.mp h with ⟨p, hp, rfl⟩
      exact (List.pairwise_cons.mp ha).1 p hp
    · rcases List.mem_map.mp h with ⟨p, hp, rfl⟩
      exact (List.pairwise_cons.mp hb).1 p hp
  | case5 s en i v a' j w b' hne hlt ih =>
    intro ha hb
    rw [spMerge, if_neg hne, if_pos hlt]
    have ha' := (List.pairwise_cons.mp ha).2
    refine asc_filt_append _ _ _ _ (ih ha' hb) ?_
    intro k hk
    rcases spMerge_mem_fst _ _ _ _ k hk with h | h
    · rcases List.mem_map.mp h with ⟨p, hp, rfl⟩
      exact (List.pairwise_cons.mp ha).1 p hp
    · exact asc_all_gt j w b' hb i hlt k h
  | case6 s en i v a' j w b' hne hnlt ih =>
    intro ha hb
    rw [spMerge, if_neg hne, if_neg hnlt]
    have hji : j < i := by omega
    have hb' := (List.pairwise_cons.mp hb).2
    refine asc_filt_append _ _ _ _ (ih ha hb') ?_
    intro k hk
    rcases spMerge_mem_fst _ _ _ _ k hk with h | h
    · exact asc_all_gt i v a' ha j hji k h
    · rcases List.mem_map.mp h with ⟨p, hp, rfl⟩
      exact (List.pairwise_cons.mp hb).1 p hp

/-- No entry stored by the additive merge has a value satisfying the
zero test: an entry is emitted only under a zero-test guard, and in the
unscaled branch `scale * value` vanishes whenever `value` does. -/
theorem spMerge_zeroFree :
    ∀ (a b : List (Int × Int)) (s : Int) (en : Bool),
      ZeroFree (spMerge a b s en) := by
  intro a b s en
  induction a, b, s, en using spMerge.induct with
  | case1 s en =>
    intro p hp
    simp [spMerge] at hp
  | case2 s en i v a' ih =>
    rw [spMerge]
    exact zeroFree_filt_append _ _ _ _ ih (fun h => by simpa using h)
  | case3 s en j w b' ih =>
    rw [spMerge]
    refine zeroFree_filt_append _ _ _ _ ih (fun h => ?_)
    simp only [isZeroT, Bool.not_eq_true, beq_eq_false_iff_ne, ne_eq,
      Bool.not_eq_eq_eq_not, Bool.not_true] at h ⊢
    split
    · exact h
    · intro h0
      exact h (by rw [h0, mul_zero])
  | case4 s en v a' j w b' ih =>
    rw [spMerge, if_pos rfl]
    exact zeroFree_filt_append _ _ _ _ ih (fun h => by simpa using h)
  | case5 s en i v a' j w b' hne hlt ih =>
    rw [spMerge, if_neg hne, if_pos hlt]
    exact zeroFree_filt_append _ _ _ _ ih (fun h => by simpa using h)
  | case6 s en i v a' j w b' hne hnlt ih =>
    rw [spMerge, if_neg hne, if_neg hnlt]
    refine zeroFree_filt_append _ _ _ _ ih (fun h => ?_)
    simp only [isZeroT, Bool.not_eq_true, beq_eq_false_iff_ne, ne_eq,
      Bool.not_eq_eq_eq_not, Bool.not_true] at h ⊢
    split
    · exact h
    · intro h0
      exact h (by rw [h0, mul_zero])

/-- Splitting `entLookup` over a conditionally emitted head. -/
theorem entLookup_filt_append (i x : Int) (rest : List (Int × Int)) (c : Prop)
    [Decidable c] (k : Int) :
    entLookup ((if c then [(i, x)] else []) ++ rest) k =
      if c ∧ i = k then x else entLookup rest k := by
  by_cases hc : c
  · by_cases hik : i = k <;> simp [hc, hik, entLookup_cons]
  · simp [hc]

/-- In a strictly ascending cons-list, the tail indices lie above the
head index. -/
theorem asc_tail_gt (i v : Int) (a' : List (Int × Int))
    (ha : Asc ((i, v) :: a')) :
    ∀ k ∈ a'.map Prod.fst, i < k := by
  intro k hk
  rcases List.mem_map.mp hk with ⟨p, hp, rfl⟩
  exact (List.pairwise_cons.mp ha).1 p hp

/-- The additive merge stores nothing at an index lying below both
operands. -/
theorem entLookup_spMerge_lt (a b : List (Int × Int)) (s : Int) (en : Bool)
    (i : Int) (hai : ∀ k ∈ a.map Prod.fst, i < k)
    (hbi : ∀ k ∈ b.map Prod.fst, i < k) :
    entLookup (spMerge a b s en) i = 0 := by
  refine entLookup_eq_zero _ _ (fun p hp => ?_)
  have hm : p.1 ∈ (spMerge a b s en).map Prod.fst := List.mem_map_of_mem _ hp
  rcases spMerge_mem_fst _ _ _ _ p.1 hm with h | h
  · have := hai p.1 h
    omega
  · have := hbi p.1 h
    omega

/-- `entLookup` is absent below a sorted cons-list. -/
theorem entLookup_asc_lt (j w : Int) (b' : List (Int × Int))
    (hb : Asc ((j, w) :: b')) (i : Int) (hij : i < j) :
    entLookup ((j, w) :: b') i = 0 := by
  refine entLookup_eq_zero _ _ (fun p hp => ?_)
  have := asc_all_gt j w b' hb i hij p.1 (List.mem_map_of_mem _ hp)
  omega

/-- `List<T>::Add`'s merge (`SparseAdd` with `scale = 1, enable_scale =
false`) computes the index-wise sum of the two operands at every index:
on strictly ascending operands, the merged lookup is the sum of the two
lookups. -/
theorem spMerge_lookup :
    ∀ (a b : List (Int × Int)) (s : Int) (en : Bool),
      s = 1 → en = false → Asc a → Asc b →
      ∀ k, entLookup (spMerge a b s en) k = entLookup a k + entLookup b k := by
  intro a b s en
  induction a, b, s, en using spMerge.induct with
  | case1 s en =>
    intro _ _ _ _ k
    simp [spMerge, entLookup_nil]
  | case2 s en i v a' ih =>
    intro hs hen ha hb k
    subst hs; subst hen
    rw [spMerge, entLookup_filt_append]
    have ha' := (List.pairwise_cons.mp ha).2
    have IH := ih rfl rfl ha' hb k
    rw [entLookup_cons]
    by_cases hik : i = k
    · subst hik
      by_cases hv : v = 0
      · have hz : ¬ ((!isZeroT v) = true ∧ i = i) := by
          simp [isZeroT, hv]
        rw [if_neg hz, if_pos rfl, hv]
        rw [entLookup_spMerge_lt a' [] 1 false i (asc_tail_gt i v a' ha) (by simp)]
        simp [entLookup_nil]
      · have hz : ((!isZeroT v) = true ∧ i = i) := by
          simp [isZeroT, hv]
        rw [if_pos hz, if_pos rfl]
        simp [entLookup_nil]
    · have hz : ¬ ((!isZeroT v) = true ∧ i = k) := by
        simp [hik]
      rw [if_neg hz, if_neg hik, IH]
  | case3 s en j w b' ih =>
    intro hs hen ha hb k
    subst hs; subst hen
    rw [spMerge, entLookup_filt_append]
    simp only [one_mul, Bool.false_eq_true, if_false]
    have hb' := (List.pairwise_cons.mp hb).2
    have IH := ih rfl rfl ha hb' k
    rw [entLookup_cons, entLookup_nil]
    by_cases hjk : j = k
    · subst hjk
      by_cases hw : w = 0
      · have hz : ¬ ((!isZeroT w) = true ∧ j = j) := by
          simp [isZeroT, hw]
        rw [if_neg hz, if_pos rfl, hw]
        rw [entLookup_spMerge_lt [] b' 1 false j (by simp) (asc_tail_gt j w b' hb)]
        simp
      · have hz : ((!isZeroT w) = true ∧ j = j) := by
          simp [isZeroT, hw]
        rw [if_pos hz, if_pos rfl]
        simp
    · have hz : ¬ ((!isZeroT w) = true ∧ j = k) := by
        simp [hjk]
      rw [if_neg hz, if_neg hjk, IH]
      simp [entLookup_nil]
  | case4 s en v a' j w b' ih =>
    intro hs hen ha hb k
    subst hs; subst hen
    rw [spMerge, if_pos rfl, entLookup_filt_append]
    simp only [Bool.false_eq_true, if_false]
    have ha' := (List.pairwise_cons.mp ha).2
    have hb' := (List.pairwise_cons.mp hb).2
    have IH := ih rfl rfl ha' hb' k
    rw [entLookup_cons, entLookup_cons]
    by_cases hjk : j = k
    · subst hjk
      by_cases hvw : v + w = 0
      · have hz : ¬ ((!isZeroT (v + w)) = true ∧ j = j) := by
          simp [isZeroT, hvw]
        rw [if_neg hz, if_pos rfl, if_pos rfl]
        rw [entLookup_spMerge_lt a' b' 1 false j (asc_tail_gt j v a' ha)
          (asc_tail_gt j w b' hb)]
        omega
      · have hz : ((!isZeroT (v + w)) = true ∧ j = j) := by
          simp [isZeroT, hvw]
        rw [if_pos hz, if_pos rfl, if_pos rfl]
    · have hz : ¬ ((!isZeroT (v + w)) = true ∧ j = k) := by
        simp [hjk]
      rw [if_neg hz, if_neg hjk, if_neg hjk, IH]
  | case5 s en i v a' j w b' hne hlt ih =>
    intro hs hen ha hb k
    subst hs; subst hen
    rw [spMerge, if_neg hne, if_pos hlt, entLookup_filt_append]
    have ha' := (List.pairwise_cons.mp ha).2
    have IH := ih rfl rfl ha' hb k
    rw [entLookup_cons]
    by_cases hik : i = k
    · subst hik
      have hbl : entLookup ((j, w) :: b') i = 0 := entLookup_asc_lt j w b' hb i hlt
      by_cases hv : v = 0
      · have hz : ¬ ((!isZeroT v) = true ∧ i = i) := by
          simp [isZeroT, hv]
        rw [if_neg hz, if_pos rfl, hv, IH, hbl,
          entLookup_eq_zero a' i (fun p hp => by
            have := asc_tail_gt i v a' ha p.1 (List.mem_map_of_mem _ hp); omega)]
      · have hz : ((!isZeroT v) = true ∧ i = i) := by
          simp [isZeroT, hv]
        rw [if_pos hz, if_pos rfl, hbl]
        omega
    · have hz : ¬ ((!isZeroT v) = true ∧ i = k) := by
        simp [hik]
      rw [if_neg hz, if_neg hik, IH]
  | case6 s en i v a' j w b' hne hnlt ih =>
    intro hs hen ha hb k
    subst hs; subst hen
    rw [spMerge, if_neg hne, if_neg hnlt, entLookup_filt_append]
    simp only [one_mul, Bool.false_eq_true, if_false]
    have hji : j < i := by omega
    have hb' := (List.pairwise_cons.mp hb).2
    have IH := ih rfl rfl ha hb' k
    by_cases hjk : j = k
    · subst hjk
      have hal : entLookup ((i, v) :: a') j = 0 := entLookup_asc_lt i v a' ha j hji
      have hbj : entLookup ((j, w) :: b') j = w := by
        rw [entLookup_cons]; simp
      by_cases hw : w = 0
      · have hz : ¬ ((!isZeroT w) = true ∧ j = j) := by
          simp [isZeroT, hw]
        rw [if_neg hz, IH, hal, hbj, hw,
          entLookup_eq_zero b' j (fun p hp => by
            have := asc_tail_gt j w b' hb p.1 (List.mem_map_of_mem _ hp); omega)]
      · have hz : ((!isZeroT w) = true ∧ j = j) := by
          simp [isZeroT, hw]
        rw [if_pos hz, hal, hbj]
        omega
    · have hz : ¬ ((!isZeroT w) = true ∧ j = k) := by
        simp [hjk]
      have hbk : entLookup ((j, w) :: b') k = entLookup b' k := by
        rw [entLookup_cons, if_neg hjk]
      rw [if_neg hz, IH, hbk]

/-- Every index stored by the multiplicative intersection merge occurs
in both operands. -/
theorem sparseMulE_mem_fst :
    ∀ (a b : List (Int × Int)) (k : Int),
      k ∈ (sparseMulE a b).map Prod.fst →
      k ∈ a.map Prod.fst ∧ k ∈ b.map Prod.fst := by
  intro a b
  induction a, b using sparseMulE.induct with
  | case1 b =>
    intro k hk
    simp [sparseMulE] at hk
  | case2 a h =>
    intro k hk
    rw [sparseMulE.eq_2 a h] at hk
    simp at hk
  | case3 v a' j w b' ih =>
    intro k hk
    rw [sparseMulE, if_pos rfl] at hk
    rw [List.map_append, List.mem_append] at hk
    rcases hk with hk | hk
    · rcases List.mem_map.mp hk with ⟨p, hp, rfl⟩
      have hpq := mem_filtOne _ _ hp
      constructor <;> simp [hpq]
    · rcases ih k hk with ⟨h1, h2⟩
      exact ⟨by simp [h1], by simp [h2]⟩
  | case4 i v a' j w b' hne hlt ih =>
    intro k hk
    rw [sparseMulE, if_neg hne, if_pos hlt] at hk
    rcases ih k hk with ⟨h1, h2⟩
    exact ⟨by simp [h1], h2⟩
  | case5 i v a' j w b' hne hnlt ih =>
    intro k hk
    rw [sparseMulE, if_neg hne, if_neg hnlt] at hk
    rcases ih k hk with ⟨h1, h2⟩
    exact ⟨h1, by simp [h2]⟩

/-- The multiplicative merge of two strictly ascending entry lists
stays strictly ascending. -/
theorem sparseMulE_sorted :
    ∀ (a b : List (Int × Int)), Asc a → Asc b → Asc (sparseMulE a b) := by
  intro a b
  induction a, b using sparseMulE.induct with
  | case1 b =>
    intro _ _
    simp [sparseMulE, Asc]
  | case2 a h =>
    intro _ _
    rw [sparseMulE.eq_2 a h]
    simp [Asc]
  | case3 v a' j w b' ih =>
    intro ha hb
    rw [sparseMulE, if_pos rfl]
    have ha' := (List.pairwise_cons.mp ha).2
    have hb' := (List.pairwise_cons.mp hb).2
    refine asc_filt_append _ _ _ _ (ih ha' hb') ?_
    intro k hk
    exact asc_tail_gt j v a' ha k (sparseMulE_mem_fst a' b' k hk).1
  | case4 i v a' j w b' hne hlt ih =>
    intro ha hb
    rw [sparseMulE, if_neg hne, if_pos hlt]
    exact ih (List.pairwise_cons.mp ha).2 hb
  | case5 i v a' j w b' hne hnlt ih =>
    intro ha hb
    rw [sparseMulE, if_neg hne, if_neg hnlt]
    exact ih ha (List.pairwise_cons.mp hb).2

/-- No entry stored by the multiplicative merge has a value satisfying
the zero test. -/
theorem sparseMulE_zeroFree :
    ∀ (a b : List (Int × Int)), ZeroFree (sparseMulE a b) := by
  intro a b
  induction a, b using sparseMulE.induct with
  | case1 b =>
    intro p hp
    simp [sparseMulE] at hp
  | case2 a h =>
    intro p hp
    rw [sparseMulE.eq_2 a h] at hp
    simp at hp
  | case3 v a' j w b' ih =>
    rw [sparseMulE, if_pos rfl]
    exact zeroFree_filt_append _ _ _ _ ih (fun h => by simpa using h)
  | case4 i v a' j w b' hne hlt ih =>
    rw [sparseMulE, if_neg hne, if_pos hlt]
    exact ih
  | case5 i v a' j w b' hne hnlt ih =>
    rw [sparseMulE, if_neg hne, if_neg hnlt]
    exact ih

/-- The intersection-merge dot loop is symmetric in its two operands. -/
theorem sparseDotE_comm :
    ∀ (a b : List (Int × Int)), sparseDotE a b = sparseDotE b a := by
  intro a b
  induction a, b using sparseDotE.induct with
  | case1 b =>
    rw [sparseDotE]
    cases b with
    | nil => rw [sparseDotE]
    | cons x b' => rw [sparseDotE.eq_2 (x :: b') (by simp)]
  | case2 a h =>
    rw [sparseDotE.eq_2 a h]
    cases a with
    | nil => rw [sparseDotE]
    | cons x a' => rw [sparseDotE]
  | case3 v a' j w b' ih =>
    rw [sparseDotE, if_pos rfl, sparseDotE, if_pos rfl, ih]
    ring
  | case4 i v a' j w b' hne hlt ih =>
    have hne' : ¬ j = i := fun h => hne h.symm
    have hnlt' : ¬ j < i := by omega
    rw [sparseDotE, if_neg hne, if_pos hlt, sparseDotE, if_neg hne', if_neg hnlt', ih]
  | case5 i v a' j w b' hne hnlt ih =>
    have hne' : ¬ j = i := fun h => hne h.symm
    have hlt' : j < i := by omega
    rw [sparseDotE, if_neg hne, if_neg hnlt, sparseDotE, if_neg hne', if_pos hlt', ih]

/-! ## Claim theorems: vector operations -/

/-- Strictly ascending stored indices contain no duplicate. -/
theorem asc_nodup (e : List (Int × Int)) (he : Asc e) :
    (e.map Prod.fst).Nodup := by
  have hp : (e.map Prod.fst).Pairwise (· < ·) := by
    rw [List.pairwise_map]; exact he
  exact hp.imp (fun h => ne_of_lt h)

/-- C1.  For two SPARSE vectors with strictly ascending indices,
`A.Add(B)` (a single linear merge in `SparseAdd`) leaves the receiver
satisfying `A.At(k) == oldA.At(k) + B.At(k)` at every index `k` of the
union of the two index sets. -/
theorem c1_sparse_add_at (a b : List (Int × Int)) (ha : Asc a) (hb : Asc b)
    (k : Int) (hk : k ∈ a.map Prod.fst ∨ k ∈ b.map Prod.fst) :
    ∃ c, Lst.add (Lst.sp a) (Lst.sp b) = some (Lst.sp c) ∧
      Lst.at (Lst.sp c) k = Lst.at (Lst.sp a) k + Lst.at (Lst.sp b) k := by
  refine ⟨sparseAddE a b 1 false, rfl, ?_⟩
  by_cases hbe : b.length = 0
  · have hb0 : b = [] := List.length_eq_zero.mp hbe
    subst hb0
    have hsa : sparseAddE a [] 1 false = a := by simp [sparseAddE]
    rw [hsa, at_sp_eq_entLookup _ _ ha,
      at_sp_eq_entLookup _ _ (by simp [Asc] : Asc []), entLookup_nil]
    ring
  · have hsa : sparseAddE a b 1 false = spMerge a b 1 false := by
      simp [sparseAddE, hbe]
    rw [hsa, at_sp_eq_entLookup _ _ (spMerge_sorted a b 1 false ha hb),
      at_sp_eq_entLookup _ _ ha, at_sp_eq_entLookup _ _ hb]
    exact spMerge_lookup a b 1 false rfl rfl ha hb k

/-- Witness for C1 at `A = {(0,1),(2,3)}`, `B = {(2,4),(5,6)}`, `k = 2`. -/
theorem c1_sparse_add_at_witness :
    Asc [((0 : Int), (1 : Int)), (2, 3)] ∧ Asc [((2 : Int), (4 : Int)), (5, 6)] ∧
    ((2 : Int) ∈ [((0 : Int), (1 : Int)), (2, 3)].map Prod.fst ∨
      (2 : Int) ∈ [((2 : Int), (4 : Int)), (5, 6)].map Prod.fst) ∧
    ∃ c, Lst.add (Lst.sp [(0, 1), (2, 3)]) (Lst.sp [(2, 4), (5, 6)]) = some (Lst.sp c) ∧
      Lst.at (Lst.sp c) 2 =
        Lst.at (Lst.sp [(0, 1), (2, 3)]) 2 + Lst.at (Lst.sp [(2, 4), (5, 6)]) 2 :=
  ⟨by decide, by decide, by decide,
    c1_sparse_add_at [(0, 1), (2, 3)] [(2, 4), (5, 6)] (by decide) (by decide) 2 (by decide)⟩

/-- C3 (failing-input evaluation).  `Mul` on a DENSE receiver `[2, 3]`
with SPARSE operand `{(0, 5)}` stores `5 + 2 = 7` at index 0 — the
dense-to-sparse branch combines with `+=` — whereas the element-wise
product contract demands `2 * 5 = 10`. -/
theorem c3_mul_dense_receiver_uses_addition :
    Lst.mul (Lst.dn [2, 3]) (Lst.sp [(0, 5)]) = some (Lst.sp [(0, 7)]) ∧
    ((7 : Int) ≠ 2 * 5) := by
  constructor
  · simp +decide [Lst.mul, mixedGuard]
  · decide

/-- C4 (counterexample).  `Add` with an empty SPARSE operand returns
early (`if (other->Size() == 0) return;`), so a receiver entry whose
value satisfies the zero test survives the addition. -/
theorem c4_add_empty_operand_keeps_zero_entry :
    Lst.add (Lst.sp [(0, 0)]) (Lst.sp []) = some (Lst.sp [(0, 0)]) ∧
    ¬ ZeroFree [((0 : Int), (0 : Int))] := by
  constructor
  · simp +decide [Lst.add, Lst.addScaled, sparseAddE]
  · intro h
    have := h (0, 0) (by simp)
    simp [isZeroT] at this

/-- C4 (amended).  After `Add` of two strictly ascending SPARSE vectors
with a non-empty operand, and after any `Mul` of two strictly ascending
SPARSE vectors, the stored indices remain strictly ascending and
duplicate-free and no stored value satisfies the zero test; `Add` with
an empty operand is an early return that leaves the receiver — stored
zeros included — untouched. -/
theorem c4_add_mul_result_invariants (a b : List (Int × Int))
    (ha : Asc a) (hb : Asc b) :
    (∀ c, Lst.add (Lst.sp a) (Lst.sp b) = some (Lst.sp c) → b ≠ [] →
      Asc c ∧ (c.map Prod.fst).Nodup ∧ ZeroFree c) ∧
    (∀ c, Lst.mul (Lst.sp a) (Lst.sp b) = some (Lst.sp c) →
      Asc c ∧ (c.map Prod.fst).Nodup ∧ ZeroFree c) := by
  constructor
  · intro c hc hbne
    have hcc : c = sparseAddE a b 1 false := by
      have := Option.some.inj hc
      exact (Lst.sp.inj this).symm
    have hbl : ¬ b.length = 0 := by
      simpa using hbne
    have hsa : sparseAddE a b 1 false = spMerge a b 1 false := by
      simp [sparseAddE, hbl]
    subst hcc
    rw [hsa]
    exact ⟨spMerge_sorted a b 1 false ha hb,
      asc_nodup _ (spMerge_sorted a b 1 false ha hb), spMerge_zeroFree a b 1 false⟩
  · intro c hc
    have hcc : c = sparseMulE a b := by
      have := Option.some.inj hc
      exact (Lst.sp.inj this).symm
    subst hcc
    exact ⟨sparseMulE_sorted a b ha hb, asc_nodup _ (sparseMulE_sorted a b ha hb),
      sparseMulE_zeroFree a b⟩

/-- Witness for the amended C4 at `A = {(2,1),(4,-1)}`,
`B = {(2,-1),(4,1)}`. -/
theorem c4_add_mul_result_invariants_witness :
    Asc [((2 : Int), (1 : Int)), (4, -1)] ∧ Asc [((2 : Int), (-1 : Int)), (4, 1)] ∧
    (∀ c, Lst.add (Lst.sp [(2, 1), (4, -1)]) (Lst.sp [(2, -1), (4, 1)]) = some (Lst.sp c) →
      [((2 : Int), (-1 : Int)), (4, 1)] ≠ [] → Asc c ∧ (c.map Prod.fst).Nodup ∧ ZeroFree c) :=
  ⟨by decide, by decide,
    (c4_add_mul_result_invariants [(2, 1), (4, -1)] [(2, -1), (4, 1)]
      (by decide) (by decide)).1⟩

/-- The left fold with the minimum-by-value combiner keeps the minimum,
and on an exact value tie the accumulator is replaced, so the winning
position is the latest occurrence of the minimum. -/
theorem minFold_spec (es : List (Int × Int)) :
    ∀ init : Int × Int,
      (es.foldl (fun acc p => if acc.2 < p.2 then acc else p) init).2 ≤ init.2 ∧
      (∀ p ∈ es, (es.foldl (fun acc p => if acc.2 < p.2 then acc else p) init).2 ≤ p.2) ∧
      ((es.foldl (fun acc p => if acc.2 < p.2 then acc else p) init) = init ∧
          (∀ p ∈ es, init.2 < p.2) ∨
        ∃ l₁ l₂, es = l₁ ++ (es.foldl (fun acc p => if acc.2 < p.2 then acc else p) init) :: l₂ ∧
          ∀ p ∈ l₂, (es.foldl (fun acc p => if acc.2 < p.2 then acc else p) init).2 < p.2) := by
  induction es with
  | nil =>
    intro init
    refine ⟨le_refl _, by simp, Or.inl ⟨rfl, by simp⟩⟩
  | cons e es' ih =>
    intro init
    rw [List.foldl_cons]
    obtain ⟨h1, h2, h3⟩ := ih (if init.2 < e.2 then init else e)
    by_cases hie : init.2 < e.2
    · rw [if_pos hie] at h1 h2 h3 ⊢
      refine ⟨h1, ?_, ?_⟩
      · intro p hp
        rcases List.mem_cons.mp hp with rfl | hp
        · omega
        · exact h2 p hp
      · rcases h3 with ⟨hr, hgt⟩ | ⟨l₁, l₂, hsplit, hgt⟩
        · refine Or.inl ⟨hr, ?_⟩
          intro p hp
          rcases List.mem_cons.mp hp with rfl | hp
          · exact hie
          · exact hgt p hp
        · exact Or.inr ⟨e :: l₁, l₂, by rw [List.cons_append, ← hsplit], hgt⟩
    · rw [if_neg hie] at h1 h2 h3 ⊢
      refine ⟨by omega, ?_, ?_⟩
      · intro p hp
        rcases List.mem_cons.mp hp with rfl | hp
        · exact h1
        · exact h2 p hp
      · rcases h3 with ⟨hr, hgt⟩ | ⟨l₁, l₂, hsplit, hgt⟩
        · refine Or.inr ⟨[], es', ?_, ?_⟩
          · rw [hr, List.nil_append]
          · rw [hr]
            exact hgt
        · exact Or.inr ⟨e :: l₁, l₂, by rw [List.cons_append, ← hsplit], hgt⟩

/-- C7 (counterexample).  Folding `{(0,5),(3,5)}` with `MinReduce` from
initial `(-1, 100)` returns `(3, 5)`: the minimum value 5 first occurs
at index 0, but the fold reports index 3 — on an exact tie the later
entry replaces the accumulator, because `MinReduce(a, b)` keeps the
carried value `b` only when it is strictly smaller. -/
theorem c7_min_reduce_reports_later_tie :
    Lst.reduce (Lst.sp [(0, 5), (3, 5)]) minReduceE (-1, 100) = (3, 5) ∧
    ((3 : Int) ≠ 0) := by
  constructor
  · rfl
  · decide

/-- C7 (amended).  `Reduce` is a strict left-to-right fold over the
populated entries carrying the winning (index, value) pair, and folding
with the `MinReduce` combiner returns the minimum value together with
the position of its latest occurrence: on an exact value tie the later
entry is kept (when even the initial value ties or loses, the result is
an actual entry and every entry after it is strictly greater). -/
theorem c7_reduce_min_fold_latest (es : List (Int × Int)) (init : Int × Int) :
    Lst.reduce (Lst.sp es) minReduceE init =
      es.foldl (fun acc p => if acc.2 < p.2 then acc else p) init ∧
    (Lst.reduce (Lst.sp es) minReduceE init).2 ≤ init.2 ∧
    (∀ p ∈ es, (Lst.reduce (Lst.sp es) minReduceE init).2 ≤ p.2) ∧
    ((Lst.reduce (Lst.sp es) minReduceE init) = init ∧ (∀ p ∈ es, init.2 < p.2) ∨
      ∃ l₁ l₂, es = l₁ ++ (Lst.reduce (Lst.sp es) minReduceE init) :: l₂ ∧
        ∀ p ∈ l₂, (Lst.reduce (Lst.sp es) minReduceE init).2 < p.2) := by
  have hfold : Lst.reduce (Lst.sp es) minReduceE init =
      es.foldl (fun acc p => if acc.2 < p.2 then acc else p) init := rfl
  obtain ⟨h1, h2, h3⟩ := minFold_spec es init
  rw [hfold]
  exact ⟨rfl, h1, h2, h3⟩

/-- C8 (counterexample).  `Pop(0)` on the SPARSE vector `{(5, 7)}`
removes the last entry even though the given expected last index 0
differs from the stored last index 5: the guard `if (last_index > 0)`
treats 0 like "no index given". -/
theorem c8_pop_expected_zero_not_noop :
    Lst.pop (Lst.sp [(5, 7)]) 0 = some (Lst.sp []) ∧ ((0 : Int) ≠ 5) ∧
    Lst.sp ([] : List (Int × Int)) ≠ Lst.sp [(5, 7)] := by
  refine ⟨by decide, by decide, by decide⟩

/-- C8 (amended).  On a non-empty SPARSE vector, `Pop(expectedLastIndex)`
with a *positive* expected index differing from the last stored index is
a silent no-op; with an expected index equal to the last stored index it
removes exactly the last entry; and a non-positive expected index is
treated as "not given", unconditionally removing the last entry. -/
theorem c8_pop_expected_index_guard (e : List (Int × Int)) (he : e ≠ [])
    (li : Int) :
    (li > 0 → (e.getLastD (0, 0)).1 ≠ li → Lst.pop (Lst.sp e) li = some (Lst.sp e)) ∧
    ((e.getLastD (0, 0)).1 = li → Lst.pop (Lst.sp e) li = some (Lst.sp e.dropLast)) ∧
    (li ≤ 0 → Lst.pop (Lst.sp e) li = some (Lst.sp e.dropLast)) := by
  have hlen : e.length > 0 := List.length_pos.mpr he
  refine ⟨?_, ?_, ?_⟩
  · intro hpos hne
    simp only [Lst.pop, spPop, if_pos hlen]
    rw [if_pos ⟨hpos, hne⟩]
  · intro heq
    simp only [Lst.pop, spPop, if_pos hlen]
    rw [if_neg]
    intro hcon
    exact hcon.2 heq
  · intro hle
    simp only [Lst.pop, spPop, if_pos hlen]
    rw [if_neg]
    intro hcon
    omega

/-- Witness for the amended C8 at `{(5, 7)}` with expected index 5. -/
theorem c8_pop_expected_index_guard_witness :
    ([((5 : Int), (7 : Int))] ≠ []) ∧
    Lst.pop (Lst.sp [(5, 7)]) 5 = some (Lst.sp []) := by
  have h := (c8_pop_expected_index_guard [(5, 7)] (by decide) 5).2.1 (by decide)
  exact ⟨by decide, by simpa using h⟩

/-- The preconditions of `List<T>::Dot`: equal sizes when both operands
are DENSE; in the mixed cases every sparse index must address the dense
array, i.e. be non-negative and strictly below the dense size (the
source's assert checks only the last index, but a negative stored index
would make `dense_data[sparse_index[i]]` an out-of-bounds read —
undefined behaviour, outside this embedding's domain); none for
SPARSE×SPARSE. -/
def dotPre : Lst → Lst → Prop
  | .sp _, .sp _ => True
  | .dn x, .dn y => x.length = y.length
  | .sp a, .dn y => InBounds a (y.length : Int)
  | .dn x, .sp b => InBounds b (x.length : Int)

/-- A non-empty list's `getLastD` is one of its members. -/
theorem getLastD_mem (e : List (Int × Int)) (he : e ≠ []) :
    e.getLastD (0, 0) ∈ e := by
  cases e with
  | nil => exact absurd rfl he
  | cons x l =>
    rw [List.getLastD_cons]
    exact List.getLastD_mem_cons l x

/-- The bound assertion of the mixed branches follows from every sparse
index lying below the dense size. -/
theorem mixedGuard_of_bounds (e : List (Int × Int)) (n : Nat)
    (h : ∀ k ∈ e.map Prod.fst, k < (n : Int)) : mixedGuard e n := by
  intro hne
  exact h _ (List.mem_map_of_mem _ (getLastD_mem e hne))

/-- The bound assertion of the mixed branches follows from every sparse
index addressing the dense array. -/
theorem mixedGuard_of_inBounds (e : List (Int × Int)) (n : Nat)
    (h : InBounds e (n : Int)) : mixedGuard e n := by
  refine mixedGuard_of_bounds e n (fun k hk => ?_)
  rcases List.mem_map.mp hk with ⟨p, hp, rfl⟩
  exact (h p hp).2

/-- C9.  `Dot` is symmetric: in each of the four storage combinations,
whenever `Dot`'s preconditions hold — equal DENSE sizes, and in the
mixed cases every sparse index a valid dense position — `A.Dot(B)`
succeeds and equals `B.Dot(A)` (the operation reads but never writes
its operands: in this embedding it returns only the scalar). -/
theorem c9_dot_symmetric (A B : Lst) (h : dotPre A B) :
    A.dot B = B.dot A ∧ (A.dot B).isSome := by
  cases A with
  | sp a =>
    cases B with
    | sp b =>
      constructor
      · show some (sparseDotE a b) = some (sparseDotE b a)
        rw [sparseDotE_comm]
      · rfl
    | dn y =>
      have hg : mixedGuard a y.length := mixedGuard_of_inBounds a y.length h
      constructor
      · rfl
      · show (Lst.dot (Lst.sp a) (Lst.dn y)).isSome
        simp only [Lst.dot, if_pos hg, Option.isSome_some]
  | dn x =>
    cases B with
    | sp b =>
      have hg : mixedGuard b x.length := mixedGuard_of_inBounds b x.length h
      constructor
      · rfl
      · show (Lst.dot (Lst.dn x) (Lst.sp b)).isSome
        simp only [Lst.dot, if_pos hg, Option.isSome_some]
    | dn y =>
      have hxy : x.length = y.length := h
      constructor
      · show Lst.dot (Lst.dn x) (Lst.dn y) = Lst.dot (Lst.dn y) (Lst.dn x)
        simp only [Lst.dot, if_pos hxy, if_pos hxy.symm]
        rw [List.zipWith_comm_of_comm (fun u v => u * v) mul_comm]
      · show (Lst.dot (Lst.dn x) (Lst.dn y)).isSome
        simp only [Lst.dot, if_pos hxy, Option.isSome_some]

/-- Witness for C9: a SPARSE x DENSE pair meeting the bound
precondition. -/
theorem c9_dot_symmetric_witness :
    dotPre (Lst.sp [(0, 2)]) (Lst.dn [3, 4]) ∧
    ((Lst.sp [(0, 2)]).dot (Lst.dn [3, 4]) = (Lst.dn [3, 4]).dot (Lst.sp [(0, 2)]) ∧
      ((Lst.sp [(0, 2)]).dot (Lst.dn [3, 4])).isSome) := by
  have hpre : dotPre (Lst.sp [(0, 2)]) (Lst.dn [3, 4]) := by
    intro p hp
    simp at hp
    rw [hp]
    exact ⟨by decide, by decide⟩
  exact ⟨hpre, c9_dot_symmetric _ _ hpre⟩

/-- Two positions of a strictly sorted list holding the same value are
equal. -/
theorem sorted_pos_unique (idx : List Int) (hs : idx.Pairwise (· < ·))
    (p q : Nat) (hp : p < idx.length) (hq : q < idx.length)
    (hpq : idx.getD p 0 = idx.getD q 0) : p = q := by
  by_contra hne
  rcases Nat.lt_or_ge p q with hlt | hge
  · have := List.pairwise_iff_getElem.mp hs p q hp hq hlt
    rw [List.getD_eq_getElem _ _ hp, List.getD_eq_getElem _ _ hq] at hpq
    omega
  · have hqp : q < p := by omega
    have := List.pairwise_iff_getElem.mp hs q p hq hp hqp
    rw [List.getD_eq_getElem _ _ hp, List.getD_eq_getElem _ _ hq] at hpq
    omega

/-- C10.  `Erase(k)` on a SPARSE vector with strictly ascending indices:
when `k` is stored at position `p`, the size shrinks by one and each
later entry moves down one slot with its value unchanged and its stored
index decremented by one; when `k` is absent the vector is unchanged. -/
theorem c10_erase_shifts_indices (e : List (Int × Int)) (he : Asc e) (k : Int) :
    (∀ l₁ v l₂, e = l₁ ++ (k, v) :: l₂ →
      Lst.eraseAt (Lst.sp e) k =
        Lst.sp (l₁ ++ l₂.map (fun p => (p.1 - 1, p.2))) ∧
      (l₁ ++ l₂.map (fun p => (p.1 - 1, p.2))).length + 1 = e.length) ∧
    (k ∉ e.map Prod.fst → Lst.eraseAt (Lst.sp e) k = Lst.sp e) := by
  have hs : (e.map Prod.fst).Pairwise (· < ·) := by
    rw [List.pairwise_map]; exact he
  constructor
  · intro l₁ v l₂ hsplit
    have hkpos : l₁.length < e.length := by
      rw [hsplit]
      simp only [List.length_append, List.length_cons]
      omega
    have hkpos' : l₁.length < (e.map Prod.fst).length := by simpa using hkpos
    have hmape : e.map Prod.fst = l₁.map Prod.fst ++ k :: l₂.map Prod.fst := by
      rw [hsplit]; simp
    have hkval : (e.map Prod.fst).getD l₁.length 0 = k := by
      have hlen1 : l₁.length < (l₁.map Prod.fst ++ k :: l₂.map Prod.fst).length := by
        simp only [List.length_append, List.length_map, List.length_cons]
        omega
      rw [hmape, List.getD_eq_getElem _ _ hlen1]
      have hle : (l₁.map Prod.fst).length ≤ l₁.length := by simp
      rw [List.getElem_append_right hle]
      simp
    rcases binarySearch_correct (e.map Prod.fst) k hs with ⟨_, habs⟩ | ⟨h0, hlt, hget⟩
    · exact absurd hkval (habs l₁.length hkpos')
    · have hposeq : (binarySearch (e.map Prod.fst) k).toNat = l₁.length :=
        sorted_pos_unique (e.map Prod.fst) hs _ l₁.length hlt hkpos' (by rw [hget, hkval])
      constructor
      · simp only [Lst.eraseAt, if_pos h0]
        rw [hposeq, hsplit]
        have htake : (l₁ ++ (k, v) :: l₂).take l₁.length = l₁ := List.take_left l₁ _
        have hdrop : (l₁ ++ (k, v) :: l₂).drop (l₁.length + 1) = l₂ := by
          have hassoc : l₁ ++ (k, v) :: l₂ = (l₁ ++ [(k, v)]) ++ l₂ := by simp
          have hl : (l₁ ++ [(k, v)]).length = l₁.length + 1 := by simp
          rw [hassoc, ← hl, List.drop_left]
        rw [htake, hdrop]
      · rw [hsplit]
        simp only [List.length_append, List.length_map, List.length_cons]
        omega
  · intro hkabs
    rcases binarySearch_correct (e.map Prod.fst) k hs with ⟨hbs, _⟩ | ⟨h0, hlt, hget⟩
    · simp only [Lst.eraseAt, hbs]
      rw [if_neg (by omega)]
    · exfalso
      apply hkabs
      rw [← hget]
      rw [List.getD_eq_getElem _ _ hlt]
      exact List.getElem_mem hlt

/-- Witness for C10: erasing index 3 from `{(1,4),(3,6),(7,8)}` yields
`{(1,4),(6,8)}`, and erasing the absent index 2 changes nothing. -/
theorem c10_erase_shifts_indices_witness :
    Asc [((1 : Int), (4 : Int)), (3, 6), (7, 8)] ∧
    Lst.eraseAt (Lst.sp [(1, 4), (3, 6), (7, 8)]) 3 = Lst.sp [(1, 4), (6, 8)] ∧
    Lst.eraseAt (Lst.sp [(1, 4), (3, 6), (7, 8)]) 2 = Lst.sp [(1, 4), (3, 6), (7, 8)] := by
  have h1 := (c10_erase_shifts_indices [(1, 4), (3, 6), (7, 8)] (by decide) 3).1
    [(1, 4)] 6 [(7, 8)] rfl
  have h2 := (c10_erase_shifts_indices [(1, 4), (3, 6), (7, 8)] (by decide) 2).2
    (by decide)
  exact ⟨by decide, by simpa using h1.1, h2⟩

/-! ## Claim theorems: outer product -/

/-- On a strictly ascending entry list, the stored pair at an index is
the unique match of the linear lookup. -/
theorem entLookup_of_mem_asc (e : List (Int × Int)) (he : Asc e)
    (p : Int × Int) (hp : p ∈ e) (i : Int) (hpi : p.1 = i) :
    entLookup e i = p.2 := by
  induction e with
  | nil => simp at hp
  | cons q e' ih =>
    rcases List.mem_cons.mp hp with rfl | hp'
    · rw [entLookup_cons, if_pos hpi]
    · have hq : q.1 < p.1 := (List.pairwise_cons.mp he).1 p hp'
      rw [entLookup_cons, if_neg (by omega)]
      exact ih (List.pairwise_cons.mp he).2 hp'

/-- Scaling preserves strict ascent (indices are untouched). -/
theorem asc_scale_map (e : List (Int × Int)) (s : Int) (he : Asc e) :
    Asc (e.map (fun p => (p.1, p.2 * s))) := by
  rw [Asc, List.pairwise_map]
  exact he.imp (fun h => h)

/-- The linear lookup of a value-scaled entry list is the scaled
lookup. -/
theorem entLookup_scale_map (e : List (Int × Int)) (s : Int) (j : Int) :
    entLookup (e.map (fun p => (p.1, p.2 * s))) j = entLookup e j * s := by
  induction e with
  | nil => simp [entLookup_nil]
  | cons q e' ih =>
    rw [List.map_cons, entLookup_cons, entLookup_cons]
    by_cases hq : q.1 = j
    · rw [if_pos hq, if_pos hq]
    · rw [if_neg hq, if_neg hq, ih]

/-- `At` of a scaled sparse clone is the scaled `At`. -/
theorem at_scaleBy_sp (e : List (Int × Int)) (s : Int) (he : Asc e) (j : Int) :
    ((Lst.sp e).scaleBy s).at j = (Lst.sp e).at j * s := by
  show (Lst.sp (e.map (fun p => (p.1, p.2 * s)))).at j = (Lst.sp e).at j * s
  rw [at_sp_eq_entLookup _ _ (asc_scale_map e s he), at_sp_eq_entLookup _ _ he]
  exact entLookup_scale_map e s j

/-- The slot left by the axis-building fold of `Cross`: the slot of an
entry's index holds that entry's installed vector, and untouched slots
keep their initial content. -/
theorem setFold_getD (g : Int × Int → Lst) :
    ∀ (entries : List (Int × Int)) (init : List Lst),
      Asc entries → (∀ p ∈ entries, 0 ≤ p.1 ∧ p.1 < (init.length : Int)) →
      ∀ i : Int, 0 ≤ i →
        (∀ p ∈ entries, p.1 = i →
          (entries.foldl (fun rh p => rh.set p.1.toNat (g p)) init).getD i.toNat (Lst.sp [])
            = g p) ∧
        (i ∉ entries.map Prod.fst →
          (entries.foldl (fun rh p => rh.set p.1.toNat (g p)) init).getD i.toNat (Lst.sp [])
            = init.getD i.toNat (Lst.sp [])) := by
  intro entries
  induction entries with
  | nil =>
    intro init _ _ i _
    exact ⟨fun p hp => by simp at hp, fun _ => by rw [List.foldl_nil]⟩
  | cons q entries' ih =>
    intro init hA hB i h0
    have hA' := (List.pairwise_cons.mp hA).2
    have hq := hB q (by simp)
    have hB' : ∀ p ∈ entries', 0 ≤ p.1 ∧ p.1 < ((init.set q.1.toNat (g q)).length : Int) := by
      intro p hp
      rw [List.length_set]
      exact hB p (by simp [hp])
    rw [List.foldl_cons]
    constructor
    · intro p hp hpi
      rcases List.mem_cons.mp hp with rfl | hp'
      · have hni : i ∉ entries'.map Prod.fst := by
          intro hmem
          rcases List.mem_map.mp hmem with ⟨r, hr, hri⟩
          have := (List.pairwise_cons.mp hA).1 r hr
          omega
        have h2 := (ih (init.set p.1.toNat (g p)) hA' hB' i h0).2 hni
        rw [h2]
        have hti : i.toNat = p.1.toNat := by rw [hpi]
        rw [hti]
        have hlt : p.1.toNat < (init.set p.1.toNat (g p)).length := by
          rw [List.length_set]
          omega
        rw [List.getD_eq_getElem _ _ hlt, List.getElem_set_self]
      · exact (ih (init.set q.1.toNat (g q)) hA' hB' i h0).1 p hp' hpi
    · intro hni
      have hni' : i ∉ entries'.map Prod.fst := by
        intro hmem
        apply hni
        rw [List.map_cons]
        exact List.mem_cons_of_mem _ hmem
      have hqi : q.1 ≠ i := by
        intro hcon
        apply hni
        rw [List.map_cons, hcon]
        exact List.mem_cons_self _ _
      have h2 := (ih (init.set q.1.toNat (g q)) hA' hB' i h0).2 hni'
      rw [h2]
      by_cases hilt : i.toNat < init.length
      · rw [List.getD_eq_getElem _ _ (by rw [List.length_set]; exact hilt),
          List.getD_eq_getElem _ _ hilt]
        exact List.getElem_set_ne (by omega) _
      · rw [List.getD_eq_default _ _ (by rw [List.length_set]; omega),
          List.getD_eq_default _ _ (by omega)]

/-- Reading through one axis built by `Cross`: slot `i` of the fold
holds the source vector scaled by the driving vector's value at `i`, so
its `At(x)` is the product of the two lookups. -/
theorem crossAxis_at (se entries : List (Int × Int)) (n : Int)
    (hse : Asc se) (hA : Asc entries) (hBnd : InBounds entries n)
    (i x : Int) (hi0 : 0 ≤ i) :
    ((entries.foldl (fun rh p => rh.set p.1.toNat ((Lst.sp se).clone.scaleBy p.2))
        (List.replicate n.toNat (Lst.sp []))).getD i.toNat (Lst.sp [])).at x
      = (Lst.sp se).at x * (Lst.sp entries).at i := by
  have hlen : ((List.replicate n.toNat (Lst.sp [])).length : Int) = (n.toNat : Int) := by
    simp
  have hbounds : ∀ p ∈ entries, 0 ≤ p.1 ∧
      p.1 < ((List.replicate n.toNat (Lst.sp [])).length : Int) := by
    intro p hp
    rw [hlen]
    have := hBnd p hp
    omega
  have hfold := setFold_getD (fun p => (Lst.sp se).clone.scaleBy p.2) entries
    (List.replicate n.toNat (Lst.sp [])) hA hbounds i hi0
  by_cases hmem : i ∈ entries.map Prod.fst
  · rcases List.mem_map.mp hmem with ⟨p, hp, hpi⟩
    rw [hfold.1 p hp hpi]
    show ((Lst.sp se).scaleBy p.2).at x = (Lst.sp se).at x * (Lst.sp entries).at i
    rw [at_scaleBy_sp se p.2 hse x, at_sp_eq_entLookup entries i hA,
      entLookup_of_mem_asc entries hA p hp i hpi]
  · rw [hfold.2 hmem]
    have hrep : (List.replicate n.toNat (Lst.sp [])).getD i.toNat (Lst.sp []) = Lst.sp [] := by
      by_cases hlt : i.toNat < n.toNat
      · rw [List.getD_eq_getElem _ _ (by simpa using hlt), List.getElem_replicate]
      · rw [List.getD_eq_default _ _ (by simp only [List.length_replicate]; omega)]
    rw [hrep, at_sp_eq_entLookup ([]) x (by simp [Asc]), entLookup_nil,
      at_sp_eq_entLookup entries i hA,
      entLookup_eq_zero entries i (fun p hp hcon => hmem (by
        rw [← hcon]; exact List.mem_map_of_mem _ hp))]
    ring

/-- C2.  The outer product `M = A.Cross(B, rows, cols)` built with both
axes satisfies `M.At(i,j) == A.At(i) * B.At(j)` at every in-range cell,
and the value read through `M.Row(i)` equals the value read through
`M.Col(j)` there (cross-axis agreement). -/
theorem c2_cross_outer_product (ea eb : List (Int × Int)) (rows cols : Int)
    (ha : Asc ea) (hb : Asc eb) (hab : InBounds ea rows) (hbb : InBounds eb cols)
    (i j : Int) (hi0 : 0 ≤ i) (_hi : i < rows) (hj0 : 0 ≤ j) (_hj : j < cols) :
    ∃ M, Lst.cross (Lst.sp ea) (Lst.sp eb) rows cols TFormat.rowAndColumn = some M ∧
      M.at i j = (Lst.sp ea).at i * (Lst.sp eb).at j ∧
      (M.rowGet i).at j = (M.colGet j).at i := by
  refine ⟨Tab.mk rows cols TFormat.rowAndColumn
      (ea.foldl (fun rh p => rh.set p.1.toNat ((Lst.sp eb).clone.scaleBy p.2))
        (List.replicate rows.toNat (Lst.sp [])))
      (eb.foldl (fun ch p => ch.set p.1.toNat ((Lst.sp ea).clone.scaleBy p.2))
        (List.replicate cols.toNat (Lst.sp []))), by rfl, ?_, ?_⟩
  · show ((ea.foldl (fun rh p => rh.set p.1.toNat ((Lst.sp eb).clone.scaleBy p.2))
        (List.replicate rows.toNat (Lst.sp []))).getD i.toNat (Lst.sp [])).at j
      = (Lst.sp ea).at i * (Lst.sp eb).at j
    rw [crossAxis_at eb ea rows hb ha hab i j hi0]
    ring
  · show ((ea.foldl (fun rh p => rh.set p.1.toNat ((Lst.sp eb).clone.scaleBy p.2))
        (List.replicate rows.toNat (Lst.sp []))).getD i.toNat (Lst.sp [])).at j
      = ((eb.foldl (fun ch p => ch.set p.1.toNat ((Lst.sp ea).clone.scaleBy p.2))
        (List.replicate cols.toNat (Lst.sp []))).getD j.toNat (Lst.sp [])).at i
    rw [crossAxis_at eb ea rows hb ha hab i j hi0,
      crossAxis_at ea eb cols ha hb hbb j i hj0]
    ring

/-- Witness for C2 at `A = {(0,2),(1,3)}`, `B = {(1,5)}`, a 2x2 matrix,
cell (1, 1). -/
theorem c2_cross_outer_product_witness :
    Asc [((0 : Int), (2 : Int)), (1, 3)] ∧ Asc [((1 : Int), (5 : Int))] ∧
    InBounds [((0 : Int), (2 : Int)), (1, 3)] 2 ∧ InBounds [((1 : Int), (5 : Int))] 2 ∧
    ∃ M, Lst.cross (Lst.sp [(0, 2), (1, 3)]) (Lst.sp [(1, 5)]) 2 2
        TFormat.rowAndColumn = some M ∧
      M.at 1 1 = (Lst.sp [(0, 2), (1, 3)]).at 1 * (Lst.sp [(1, 5)]).at 1 ∧
      (M.rowGet 1).at 1 = (M.colGet 1).at 1 :=
  ⟨by decide, by decide, by decide, by decide,
    c2_cross_outer_product [(0, 2), (1, 3)] [(1, 5)] 2 2 (by decide) (by decide)
      (by decide) (by decide) 1 1 (by decide) (by decide) (by decide) (by decide)⟩

/-! ## Claim theorems: column append/remove and weighted row sums -/

/-- C5 (failing-input evaluation).  On a `ROW_ONLY` matrix,
`AppendExtraCol` never touches the column array (it was never
allocated), yet `RemoveExtraCol`'s row-fixup branch — whose guard
explicitly includes `ROW_ONLY` — reads `col_heads_[columns_]`.  The
embedding renders that read of an unallocated axis as `none`: the
append/remove pair fails instead of restoring the matrix. -/
theorem c5_remove_extra_col_row_only_fails :
    ((Tab.init 1 0 TFormat.rowOnly).appendExtraCol (Lst.sp [(0, 5)])).removeExtraCol
      = none := by
  rfl

/-- The mixed dense-receiver branch of `AddScaled` succeeds and
scatters under the bound assertion. -/
theorem addScaled_dn_sp (acc : List Int) (e : List (Int × Int)) (s : Int)
    (hg : mixedGuard e acc.length) :
    Lst.addScaled (Lst.dn acc) (Lst.sp e) s true = some (Lst.dn (scatterAdd acc e s)) := by
  simp only [Lst.addScaled, if_pos hg, if_true]

/-- The scatter loop of `AddScaled`'s dense-receiver branch adds
`scale * value` at each stored index, position-wise. -/
theorem scatterAdd_spec (e : List (Int × Int)) :
    ∀ (acc : List Int) (s : Int), Asc e → InBounds e (acc.length : Int) →
      (scatterAdd acc e s).length = acc.length ∧
      ∀ j : Int, 0 ≤ j →
        (scatterAdd acc e s).getD j.toNat 0 = acc.getD j.toNat 0 + s * entLookup e j := by
  induction e with
  | nil =>
    intro acc s _ _
    refine ⟨rfl, fun j _ => ?_⟩
    simp [scatterAdd, entLookup_nil]
  | cons q e' ih =>
    intro acc s hA hB
    have hq := hB q (by simp)
    have hA' := (List.pairwise_cons.mp hA).2
    have hacc' : (acc.set q.1.toNat (acc.getD q.1.toNat 0 + s * q.2)).length = acc.length :=
      List.length_set acc _ _
    have hB' : InBounds e' ((acc.set q.1.toNat (acc.getD q.1.toNat 0 + s * q.2)).length : Int) := by
      intro p hp
      rw [hacc']
      exact hB p (by simp [hp])
    have hstep : scatterAdd acc (q :: e') s =
        scatterAdd (acc.set q.1.toNat (acc.getD q.1.toNat 0 + s * q.2)) e' s := rfl
    obtain ⟨ihlen, ihget⟩ := ih (acc.set q.1.toNat (acc.getD q.1.toNat 0 + s * q.2)) s hA' hB'
    rw [hstep]
    refine ⟨by rw [ihlen, hacc'], fun j hj => ?_⟩
    rw [ihget j hj, entLookup_cons]
    by_cases hqj : q.1 = j
    · rw [if_pos hqj]
      have hjlt : j.toNat < acc.length := by omega
      have htq : q.1.toNat = j.toNat := by rw [hqj]
      have hset : (acc.set q.1.toNat (acc.getD q.1.toNat 0 + s * q.2)).getD j.toNat 0
          = acc.getD j.toNat 0 + s * q.2 := by
        rw [← htq]
        rw [List.getD_eq_getElem _ _ (by rw [hacc']; omega)]
        rw [List.getElem_set_self]
      rw [hset]
      have hlk : entLookup e' j = 0 := by
        refine entLookup_eq_zero _ _ (fun p hp => ?_)
        have := asc_tail_gt q.1 q.2 e' (by simpa using hA) p.1
          (List.mem_map_of_mem _ hp)
        omega
      rw [hlk]
      ring
    · rw [if_neg hqj]
      have hset : (acc.set q.1.toNat (acc.getD q.1.toNat 0 + s * q.2)).getD j.toNat 0
          = acc.getD j.toNat 0 := by
        by_cases hjlt : j.toNat < acc.length
        · rw [List.getD_eq_getElem _ _ (by rw [hacc']; exact hjlt),
            List.getD_eq_getElem _ _ hjlt]
          exact List.getElem_set_ne (by omega) _
        · rw [List.getD_eq_default _ _ (by rw [hacc']; omega),
            List.getD_eq_default _ _ (by omega)]
      rw [hset]

/-- The row-axis accumulation loop of `SumScaledRows`: folding
`AddScaled` over the scale entries accumulates, at every column, the
sum of `scale * Row.At(column)` over the processed entries. -/
theorem rowFold_spec (rows : List Lst) (C : Int)
    (hrows : ∀ n : Nat, ∃ e, rows.getD n (Lst.sp []) = Lst.sp e ∧ Asc e ∧ InBounds e C) :
    ∀ (ps : List (Int × Int)) (acc : List Int), (acc.length : Int) = C →
      ∃ res : List Int,
        ps.foldlM (fun (ret : Lst) (p : Int × Int) =>
            ret.addScaled (rows.getD p.1.toNat (Lst.sp [])) p.2 true) (Lst.dn acc)
          = some (Lst.dn res) ∧
        (res.length : Int) = C ∧
        ∀ j : Int, 0 ≤ j →
          res.getD j.toNat 0 = acc.getD j.toNat 0 +
            (ps.map (fun p => p.2 * (rows.getD p.1.toNat (Lst.sp [])).at j)).sum := by
  intro ps
  induction ps with
  | nil =>
    intro acc hlen
    refine ⟨acc, rfl, hlen, fun j _ => ?_⟩
    simp
  | cons p ps' ih =>
    intro acc hlen
    obtain ⟨e, he, heA, heB⟩ := hrows p.1.toNat
    have hg : mixedGuard e acc.length := by
      refine mixedGuard_of_bounds e acc.length (fun k hk => ?_)
      rcases List.mem_map.mp hk with ⟨q, hq, rfl⟩
      have := heB q hq
      omega
    have hstep : (Lst.dn acc).addScaled (rows.getD p.1.toNat (Lst.sp [])) p.2 true
        = some (Lst.dn (scatterAdd acc e p.2)) := by
      rw [he]
      exact addScaled_dn_sp acc e p.2 hg
    obtain ⟨slen, sget⟩ := scatterAdd_spec e acc p.2 heA (by rw [hlen]; exact heB)
    obtain ⟨res, hres, hreslen, hresget⟩ := ih (scatterAdd acc e p.2) (by rw [slen]; exact hlen)
    refine ⟨res, ?_, hreslen, fun j hj => ?_⟩
    · rw [List.foldlM_cons, hstep]
      exact hres
    · rw [hresget j hj, sget j hj, List.map_cons, List.sum_cons, he,
        at_sp_eq_entLookup e j heA]
      ring

/-- The mixed dense/sparse branch of `Dot` under its bound assertion. -/
theorem dot_dn_sp (d : List Int) (ce : List (Int × Int))
    (hg : mixedGuard ce d.length) :
    (Lst.dn d).dot (Lst.sp ce) = some ((ce.map (fun p => p.2 * d.getD p.1.toNat 0)).sum) := by
  simp only [Lst.dot, if_pos hg]

/-- The column-axis loop of `SumScaledRows`: each processed column slot
is set to the dot product of the scale vector with that column, and
other slots keep their previous content. -/
theorem colFold_spec (cs : List Lst) (d : List Int) (R : Int)
    (hcs : ∀ n : Nat, ∃ e, cs.getD n (Lst.sp []) = Lst.sp e ∧ Asc e ∧ InBounds e R)
    (hd : (d.length : Int) = R) :
    ∀ (ns : List Nat) (acc : List Int), (∀ m ∈ ns, m < acc.length) →
      ∃ res : List Int,
        ns.foldlM (fun (ret : Lst) (col : Nat) =>
            ((Lst.dn d).dot (cs.getD ((col : Int)).toNat (Lst.sp []))).map
              (fun v => ret.set (col : Int) v)) (Lst.dn acc)
          = some (Lst.dn res) ∧
        res.length = acc.length ∧
        (∀ m ∈ ns, ∀ e, cs.getD m (Lst.sp []) = Lst.sp e →
          res.getD m 0 = (e.map (fun p => p.2 * d.getD p.1.toNat 0)).sum) ∧
        (∀ m : Nat, m ∉ ns → res.getD m 0 = acc.getD m 0) := by
  intro ns
  induction ns with
  | nil =>
    intro acc _
    exact ⟨acc, rfl, rfl, fun m hm => by simp at hm, fun m _ => rfl⟩
  | cons m ns' ih =>
    intro acc hbnd
    obtain ⟨e, he, heA, heB⟩ := hcs m
    have hg : mixedGuard e d.length := by
      refine mixedGuard_of_bounds e d.length (fun k hk => ?_)
      rcases List.mem_map.mp hk with ⟨q, hq, rfl⟩
      have := heB q hq
      omega
    have hmn : ((m : Int)).toNat = m := Int.toNat_natCast m
    have hstep : ((Lst.dn d).dot (cs.getD ((m : Int)).toNat (Lst.sp []))).map
        (fun v => (Lst.dn acc).set (m : Int) v)
        = some (Lst.dn (acc.set m ((e.map (fun p => p.2 * d.getD p.1.toNat 0)).sum))) := by
      rw [hmn, he, dot_dn_sp d e hg, Option.map_some']
      show some (Lst.dn (acc.set ((m : Int)).toNat _)) = _
      rw [hmn]
    have hbnd' : ∀ m' ∈ ns', m' < (acc.set m ((e.map (fun p => p.2 * d.getD p.1.toNat 0)).sum)).length := by
      intro m' hm'
      rw [List.length_set]
      exact hbnd m' (by simp [hm'])
    obtain ⟨res, hres, hreslen, hresin, hresout⟩ :=
      ih (acc.set m ((e.map (fun p => p.2 * d.getD p.1.toNat 0)).sum)) hbnd'
    have hmlt : m < acc.length := hbnd m (by simp)
    refine ⟨res, ?_, by rw [hreslen, List.length_set], ?_, ?_⟩
    · rw [List.foldlM_cons, hstep]
      exact hres
    · intro m' hm' e' he'
      rcases List.mem_cons.mp hm' with rfl | hmem
      · have hee : e' = e := by
          rw [he] at he'
          exact (Lst.sp.inj he').symm
        subst hee
        by_cases hin : m' ∈ ns'
        · exact hresin m' hin e' he
        · rw [hresout m' hin]
          rw [List.getD_eq_getElem _ _ (by rw [List.length_set]; exact hmlt)]
          rw [List.getElem_set_self]
      · exact hresin m' hmem e' he'
    · intro m' hm'
      have hne : m' ≠ m := fun hc => hm' (by simp [hc])
      have hnin : m' ∉ ns' := fun hc => hm' (by simp [hc])
      rw [hresout m' hnin]
      by_cases hlt : m' < acc.length
      · rw [List.getD_eq_getElem _ _ (by rw [List.length_set]; exact hlt),
          List.getD_eq_getElem _ _ hlt]
        exact List.getElem_set_ne (by omega) _
      · rw [List.getD_eq_default _ _ (by rw [List.length_set]; omega),
          List.getD_eq_default _ _ (by omega)]

/-- A list sum over `List.range` is the matching `Finset.range` sum. -/
theorem range_map_sum_eq (n : Nat) (f : Nat → Int) :
    ((List.range n).map f).sum = ∑ m ∈ Finset.range n, f m := by
  induction n with
  | zero => simp
  | succ n ih =>
    rw [List.range_succ, List.map_append, List.sum_append, Finset.sum_range_succ, ih]
    simp

/-- The mixed dot sum over a sorted bounded column equals the
position-wise sum over the whole dense range. -/
theorem entSum_eq_rangeSum (ce : List (Int × Int)) (d : List Int)
    (hce : Asc ce) (hb : InBounds ce (d.length : Int)) :
    (ce.map (fun p => p.2 * d.getD p.1.toNat 0)).sum
      = ((List.range d.length).map (fun n => d.getD n 0 * entLookup ce (n : Int))).sum := by
  induction ce with
  | nil =>
    rw [List.map_nil, List.sum_nil]
    rw [range_map_sum_eq]
    rw [Finset.sum_congr rfl (fun n _ => by rw [entLookup_nil, mul_zero])]
    rw [Finset.sum_const, smul_zero]
  | cons q ce' ih =>
    have hq := hb q (by simp)
    have hA' := (List.pairwise_cons.mp hce).2
    rw [List.map_cons, List.sum_cons, ih hA' (fun p hp => hb p (by simp [hp]))]
    rw [range_map_sum_eq, range_map_sum_eq]
    have hqmem : q.1.toNat ∈ Finset.range d.length := by
      rw [Finset.mem_range]; omega
    rw [← Finset.sum_erase_add (Finset.range d.length)
        (fun n => d.getD n 0 * entLookup ce' (n : Int)) hqmem,
      ← Finset.sum_erase_add (Finset.range d.length)
        (fun n => d.getD n 0 * entLookup (q :: ce') (n : Int)) hqmem]
    have hcast : ((q.1.toNat : Nat) : Int) = q.1 := Int.toNat_of_nonneg hq.1
    have herase : ∀ n ∈ (Finset.range d.length).erase q.1.toNat,
        d.getD n 0 * entLookup (q :: ce') (n : Int)
          = d.getD n 0 * entLookup ce' (n : Int) := by
      intro n hn
      have hne : n ≠ q.1.toNat := (Finset.mem_erase.mp hn).1
      rw [entLookup_cons, if_neg (fun hc => hne (by omega))]
    rw [Finset.sum_congr rfl herase]
    have hat : entLookup (q :: ce') ((q.1.toNat : Nat) : Int) = q.2 := by
      rw [hcast, entLookup_cons, if_pos rfl]
    have hat' : entLookup ce' ((q.1.toNat : Nat) : Int) = 0 := by
      rw [hcast]
      refine entLookup_eq_zero _ _ (fun p hp => ?_)
      have := asc_tail_gt q.1 q.2 ce' hce p.1 (List.mem_map_of_mem _ hp)
      omega
    rw [hat, hat']
    ring

/-- C6.  `SumScaledRows(scale)` returns a DENSE vector of length equal
to the column count, and its two computation paths agree: over a matrix
carrying the row axis (`ROW_ONLY`, rows `rs`) it accumulates
`scale[i] * Row(i)`, and over the same logical matrix stored
`COLUMN_ONLY` (columns `cs`, cell-wise agreeing with `rs`) it sets each
column slot to `scale . Col(j)`; both paths return the same vector. -/
theorem c6_sum_scaled_rows_two_paths (R C : Int) (hC : 0 ≤ C)
    (d : List Int) (hd : (d.length : Int) = R)
    (rs cs : List Lst)
    (hrs : ∀ n : Nat, ∃ e, rs.getD n (Lst.sp []) = Lst.sp e ∧ Asc e ∧ InBounds e C)
    (hcs : ∀ n : Nat, ∃ e, cs.getD n (Lst.sp []) = Lst.sp e ∧ Asc e ∧ InBounds e R)
    (hagree : ∀ i j : Int, 0 ≤ i → i < R → 0 ≤ j → j < C →
      ((Tab.mk R C TFormat.rowOnly rs []).rowGet i).at j
        = ((Tab.mk R C TFormat.columnOnly [] cs).colGet j).at i) :
    ∃ v : List Int,
      (Tab.mk R C TFormat.rowOnly rs []).sumScaledRows (Lst.dn d) = some (Lst.dn v) ∧
      (Tab.mk R C TFormat.columnOnly [] cs).sumScaledRows (Lst.dn d) = some (Lst.dn v) ∧
      (v.length : Int) = C := by
  have hrepllen : ((List.replicate C.toNat (0 : Int)).length : Int) = C := by
    simp
    omega
  obtain ⟨res, hres, hreslen, hresget⟩ :=
    rowFold_spec rs C hrs ((Lst.dn d).entriesList) (List.replicate C.toNat 0) hrepllen
  have hbnd : ∀ m ∈ List.range C.toNat, m < (List.replicate C.toNat (0 : Int)).length := by
    intro m hm
    simpa using List.mem_range.mp hm
  obtain ⟨res2, hres2, hres2len, hres2in, hres2out⟩ :=
    colFold_spec cs d R hcs hd (List.range C.toNat) (List.replicate C.toNat 0) hbnd
  have hrowEq : (Tab.mk R C TFormat.rowOnly rs []).sumScaledRows (Lst.dn d)
      = some (Lst.dn res) := hres
  have hcolEq : (Tab.mk R C TFormat.columnOnly [] cs).sumScaledRows (Lst.dn d)
      = some (Lst.dn res2) := hres2
  have hlen2 : res2.length = C.toNat := by
    rw [hres2len]
    simp
  have hlen1 : res.length = C.toNat := by omega
  have hkey : ∀ m : Nat, m < C.toNat → res.getD m 0 = res2.getD m 0 := by
    intro m hm
    have h1 := hresget (m : Int) (by omega)
    rw [Int.toNat_natCast] at h1
    have hrep0 : (List.replicate C.toNat (0 : Int)).getD m 0 = 0 := by
      rw [List.getD_eq_getElem _ _ (by simpa using hm), List.getElem_replicate]
    rw [hrep0, zero_add] at h1
    obtain ⟨ce, hcee, hceA, hceB⟩ := hcs m
    have h2 := hres2in m (List.mem_range.mpr hm) ce hcee
    rw [h1, h2]
    have hmap : ((Lst.dn d).entriesList).map
        (fun p => p.2 * (rs.getD p.1.toNat (Lst.sp [])).at (m : Int))
          = (List.range d.length).map
            (fun n => d.getD n 0 * (rs.getD n (Lst.sp [])).at (m : Int)) := by
      show ((List.range d.length).map (fun (n : Nat) => ((n : Int), d.getD n 0))).map _ = _
      rw [List.map_map]
      refine List.map_congr_left (fun n _ => ?_)
      show d.getD n 0 * (rs.getD ((n : Int)).toNat (Lst.sp [])).at (m : Int) = _
      rw [Int.toNat_natCast]
    rw [hmap, entSum_eq_rangeSum ce d hceA (by rw [hd]; exact hceB)]
    refine congrArg List.sum (List.map_congr_left (fun n hn => ?_))
    have hnR : ((n : Int)) < R := by
      have := List.mem_range.mp hn
      omega
    have hag := hagree (n : Int) (m : Int) (by omega) hnR (by omega) (by omega)
    have hrowg : ((Tab.mk R C TFormat.rowOnly rs []).rowGet (n : Int))
        = rs.getD n (Lst.sp []) := by
      show rs.getD ((n : Int)).toNat (Lst.sp []) = _
      rw [Int.toNat_natCast]
    have hcol : ((Tab.mk R C TFormat.columnOnly [] cs).colGet (m : Int)).at (n : Int)
        = entLookup ce (n : Int) := by
      show (cs.getD ((m : Int)).toNat (Lst.sp [])).at (n : Int) = _
      rw [Int.toNat_natCast, hcee, at_sp_eq_entLookup ce _ hceA]
    rw [← hrowg, hag, hcol]
  have hresEq : res = res2 := by
    refine List.ext_getElem (by omega) (fun m h1 h2 => ?_)
    have := hkey m (by omega)
    rwa [List.getD_eq_getElem _ _ h1, List.getD_eq_getElem _ _ h2] at this
  refine ⟨res, hrowEq, ?_, hreslen⟩
  rw [hcolEq, hresEq]

/-- Witness for C6 on the 1x1 logical matrix with empty row/column
vectors and scale `[2]`. -/
theorem c6_sum_scaled_rows_two_paths_witness :
    ((0 : Int) ≤ 1) ∧ ((([(2 : Int)] : List Int).length : Int) = 1) ∧
    (∀ n : Nat, ∃ e, [Lst.sp []].getD n (Lst.sp []) = Lst.sp e ∧ Asc e ∧ InBounds e 1) ∧
    (∀ i j : Int, 0 ≤ i → i < 1 → 0 ≤ j → j < 1 →
      ((Tab.mk 1 1 TFormat.rowOnly [Lst.sp []] []).rowGet i).at j
        = ((Tab.mk 1 1 TFormat.columnOnly [] [Lst.sp []]).colGet j).at i) ∧
    ∃ v : List Int,
      (Tab.mk 1 1 TFormat.rowOnly [Lst.sp []] []).sumScaledRows (Lst.dn [2]) = some (Lst.dn v) ∧
      (Tab.mk 1 1 TFormat.columnOnly [] [Lst.sp []]).sumScaledRows (Lst.dn [2]) = some (Lst.dn v) ∧
      (v.length : Int) = 1 := by
  have hvec : ∀ n : Nat, ∃ e, [Lst.sp []].getD n (Lst.sp []) = Lst.sp e ∧ Asc e ∧
      InBounds e 1 := by
    intro n
    refine ⟨[], ?_, by decide, by decide⟩
    cases n with
    | zero => rfl
    | succ k => rfl
  have hag : ∀ i j : Int, 0 ≤ i → i < 1 → 0 ≤ j → j < 1 →
      ((Tab.mk 1 1 TFormat.rowOnly [Lst.sp []] []).rowGet i).at j
        = ((Tab.mk 1 1 TFormat.columnOnly [] [Lst.sp []]).colGet j).at i := by
    intro i j hi0 hi1 hj0 hj1
    have hi : i = 0 := by omega
    have hj : j = 0 := by omega
    subst hi
    subst hj
    rfl
  exact ⟨by norm_num, by norm_num, hvec, hag,
    c6_sum_scaled_rows_two_paths 1 1 (by norm_num) [2] (by norm_num)
      [Lst.sp []] [Lst.sp []] hvec hvec hag⟩
